import Mathlib

/-!
# packngo: option composition and pagination helpers

A shallow embedding of `api_call_options.go` (and the parts of `batches.go`
that use it).

* Go `string` values are byte sequences (`GoString`).
* Go `[]string` values are slice headers (`Slice`) pointing into backing
  arrays that live in a `Heap`; `append` writes in place when the capacity
  allows it and allocates a new backing array otherwise.  The capacity of a
  newly allocated array is chosen by the Go runtime; it is a parameter
  (`grow`) of every function that appends.
* A variadic parameter `refs ...string` is a slice like any other: the slice
  of the caller for a call `f(s...)`, a new slice over a new backing array for
  a call with the arguments written out (`variadic`).
* `*GetOptions` values are pointers (`Ptr`) into the same heap; `none` is the
  nil pointer.
* Go `int` is 64 bits wide, with wrap-around on overflow (`wrapInt`).
* A function that can panic returns `Except Panic`.
* The library functions the code calls (`net/url`, `go-querystring`,
  `strings`, `fmt.Sprint`) are embedded from their Go sources, `net/url` as of
  Go 1.19 to 1.24.
-/

namespace Packngo

/-! ## Strings -/

/-- A Go string: an immutable sequence of bytes. -/
abbrev GoString := List UInt8

/-- The UTF-8 encoding of one code point. -/
def utf8 (c : Char) : List UInt8 :=
  let n := c.toNat
  if n < 0x80 then [UInt8.ofNat n]
  else if n < 0x800 then [UInt8.ofNat (0xC0 + n / 64), UInt8.ofNat (0x80 + n % 64)]
  else if n < 0x10000 then
    [UInt8.ofNat (0xE0 + n / 4096), UInt8.ofNat (0x80 + (n / 64) % 64),
     UInt8.ofNat (0x80 + n % 64)]
  else
    [UInt8.ofNat (0xF0 + n / 262144), UInt8.ofNat (0x80 + (n / 4096) % 64),
     UInt8.ofNat (0x80 + (n / 64) % 64), UInt8.ofNat (0x80 + n % 64)]

/-- The Go string written as the source literal `s` (Go source is UTF-8). -/
def str (s : String) : GoString := s.data.flatMap utf8

/-- The byte of an ASCII character literal such as `'?'`. -/
def ch (c : Char) : UInt8 := UInt8.ofNat c.toNat

/-! ## Integers -/

/-- Go `int` arithmetic on a 64-bit platform: the result of an operation is
reduced into the range `[-2^63, 2^63)`. -/
def wrapInt (x : Int) : Int := (x + 2 ^ 63) % 2 ^ 64 - 2 ^ 63

/-! ## Data model -/

/-- Modelled from the spec: the type `Href` is declared outside the two files;
a link ("a full or relative URL") is held as its text, read as
`meta.Next.Href`. -/
structure Href where
  Href : GoString
  deriving DecidableEq, Repr

/-- Modelled from the spec: the type `meta` is declared outside the two files;
the page metadata "holds the server's reported current page number and a
next page link, if any".  Only the two fields that `nextPage` reads are kept. -/
structure meta where
  Next : Option Href := none
  CurrentPageNum : Int := 0
  deriving DecidableEq, Repr

/-- A Go slice header for `[]string`: backing array, offset of the first
element in it, length and capacity.  The nil slice has length and capacity 0. -/
structure Slice where
  arr : Nat := 0
  off : Nat := 0
  len : Nat := 0
  cap : Nat := 0
  deriving DecidableEq, Repr

/-- The struct `GetOptions`. -/
structure GetOptions where
  Includes : Slice := {}
  Excludes : Slice := {}
  Page : Int := 0
  PerPage : Int := 0
  Search : GoString := []
  SortBy : GoString := []
  SortDirection : GoString := []
  Meta : meta := {}
  deriving DecidableEq, Repr

/-- An address of a `GetOptions` object. -/
abbrev Addr := Nat

/-- A `*GetOptions`: nil or an address. -/
abbrev Ptr := Option Addr

/-- The memory the functions work on: the backing arrays of the `[]string`
slices and the `GetOptions` objects, each addressed by its position. -/
structure Heap where
  arrays : List (List GoString) := []
  objs : List GetOptions := []
  deriving DecidableEq, Repr

namespace Heap

/-- The object at address `a` (`*p`). -/
def deref (h : Heap) (a : Addr) : GetOptions := h.objs.getD a {}

/-- Assignment through a pointer (`*p = v`). -/
def store (h : Heap) (a : Addr) (v : GetOptions) : Heap :=
  { h with objs := h.objs.set a v }

/-- Allocation of a new object holding `v` (`&v` of a fresh variable). -/
def alloc (h : Heap) (v : GetOptions) : Heap × Addr :=
  ({ h with objs := h.objs ++ [v] }, h.objs.length)

/-- The backing array with id `i`. -/
def array (h : Heap) (i : Nat) : List GoString := h.arrays.getD i []

/-- The elements `s[0], ..., s[len(s)-1]` of a slice. -/
def elems (h : Heap) (s : Slice) : List GoString :=
  ((h.array s.arr).drop s.off).take s.len

/-- The element `s[i]` (for `i < len(s)`), read from the backing array. -/
def read (h : Heap) (s : Slice) (i : Nat) : GoString := (h.array s.arr).getD (s.off + i) []

/-- An element assignment `s[i] = v` (for `i < len(s)`). -/
def setIndex (h : Heap) (s : Slice) (i : Nat) (v : GoString) : Heap :=
  { h with arrays := h.arrays.set s.arr ((h.array s.arr).set (s.off + i) v) }

/-- A slice header is well formed in a heap: its window lies inside its
backing array. -/
def sliceOK (h : Heap) (s : Slice) : Prop :=
  s.len ≤ s.cap ∧ (s.cap = 0 ∨ (s.arr < h.arrays.length ∧ s.off + s.cap ≤ (h.array s.arr).length))

instance (h : Heap) (s : Slice) : Decidable (h.sliceOK s) := by
  unfold sliceOK; exact inferInstance

/-- A pointer is well formed in a heap: nil, or the address of an allocated
object whose two slices are well formed. -/
def ptrOK (h : Heap) : Ptr → Prop
  | none => True
  | some a => a < h.objs.length ∧ h.sliceOK (h.deref a).Includes ∧ h.sliceOK (h.deref a).Excludes

instance (h : Heap) (p : Ptr) : Decidable (h.ptrOK p) := by
  cases p <;> unfold ptrOK <;> exact inferInstance

/-- The value a receiver stands for: the object pointed to, or the zero
`GetOptions` for the nil receiver. -/
def valueOf (h : Heap) : Ptr → GetOptions
  | none => {}
  | some a => h.deref a

end Heap

/-! ## Builtins and helpers -/

/-- The builtin `append(s, v)` for one value.  With spare capacity the value is
written into the backing array right after the last element; otherwise a new
backing array is allocated, of a capacity chosen by the runtime (`grow`, given
the old capacity and the needed length) and at least the needed length. -/
def append (grow : Nat → Nat → Nat) (h : Heap) (s : Slice) (v : GoString) : Heap × Slice :=
  if s.len < s.cap then
    ({ h with arrays := h.arrays.set s.arr ((h.array s.arr).set (s.off + s.len) v) },
     { s with len := s.len + 1 })
  else
    let c := max (s.len + 1) (grow s.cap (s.len + 1))
    ({ h with arrays := h.arrays ++ [h.elems s ++ [v] ++ List.replicate (c - (s.len + 1)) []] },
     { arr := h.arrays.length, off := 0, len := s.len + 1, cap := c })

/-- Modelled from the spec: the helper `contains` is declared outside the two
files; "any of refs not already present" is decided by it: whether some
element of the slice equals the needle. -/
def contains (h : Heap) (tags : Slice) (needle : GoString) : Bool :=
  (h.elems tags).any (fun t => t == needle)

/-! ## `api_call_options.go` -/

/-- `func (g *GetOptions) GetPage() int`. -/
def GetPage (h : Heap) : Ptr → Int
  | none => 0
  | some a => (h.deref a).Page

/-- `func (g *GetOptions) CopyOrNew() *GetOptions`: a new object holding the
zero value (nil receiver) or a copy of the struct `*g`. -/
def CopyOrNew (h : Heap) : Ptr → Heap × Addr
  | none => h.alloc {}
  | some a => h.alloc (h.deref a)

/-- One iteration of the loop of `Including`. -/
def includeStep (grow : Nat → Nat → Nat) (ret : Addr) (h : Heap) (v : GoString) : Heap :=
  if !contains h (h.deref ret).Includes v then
    let r := append grow h (h.deref ret).Includes v
    r.1.store ret { r.1.deref ret with Includes := r.2 }
  else h

/-- Iterations `i`, ..., `i + n - 1` of the loop `for _, v := range refs` of
`Including`.  The range expression is evaluated once, so the header `refs`
is fixed; the value `v` of iteration `i` is `refs[i]` as the backing array
holds it when that iteration starts. -/
def includeLoop (grow : Nat → Nat → Nat) (ret : Addr) (refs : Slice) : Nat → Nat → Heap → Heap
  | 0, _, h => h
  | n + 1, i, h => includeLoop grow ret refs n (i + 1) (includeStep grow ret h (h.read refs i))

/-- `func (g *GetOptions) Including(refs ...string) *GetOptions`.  Inside the
function `refs` is a `[]string`: the slice of the caller for a call
`g.Including(s...)`, backing array shared. -/
def Including (grow : Nat → Nat → Nat) (h : Heap) (g : Ptr) (refs : Slice) : Heap × Addr :=
  let r := CopyOrNew h g
  (includeLoop grow r.2 refs refs.len 0 r.1, r.2)

/-- The value a call `f(v1, ..., vn)` passes for a variadic parameter
`...string`: nil when there are no arguments, otherwise a new slice over a new
backing array that holds the arguments. -/
def variadic (h : Heap) (vs : List GoString) : Heap × Slice :=
  match vs with
  | [] => (h, {})
  | _ :: _ =>
    ({ h with arrays := h.arrays ++ [vs] },
     { arr := h.arrays.length, off := 0, len := vs.length, cap := vs.length })

/-- The call `g.Including(v1, ..., vn)` with the refs written out. -/
def IncludingArgs (grow : Nat → Nat → Nat) (h : Heap) (g : Ptr) (vs : List GoString) :
    Heap × Addr :=
  Including grow (variadic h vs).1 g (variadic h vs).2

/-- No element of `refs` lies in the spare capacity `s[len(s):cap(s)]` of the
slice `s`. -/
def spareApart (s refs : Slice) : Prop :=
  s.arr ≠ refs.arr ∨ s.cap ≤ s.len ∨ refs.len = 0 ∨
    refs.off + refs.len ≤ s.off + s.len ∨ s.off + s.cap ≤ refs.off

instance (s refs : Slice) : Decidable (spareApart s refs) := by
  unfold spareApart; exact inferInstance

/-- The reference definition of the `includes` of `Including`, in the words of
the specification: the original list plus any of `refs` not already present,
new ones appended in the order supplied. -/
def includesSpec (includes refs : List GoString) : List GoString :=
  refs.foldl (fun acc v => if v ∈ acc then acc else acc ++ [v]) includes

/-- Every field of a `GetOptions` except `Includes`. -/
def GetOptions.others (o : GetOptions) : GetOptions := { o with Includes := {} }

/-! ## Package `strings` (the functions `net/url` uses) -/

/-- `strings.HasPrefix`. -/
def hasPrefix (s pre : GoString) : Bool := s.take pre.length == pre

/-- `strings.HasSuffix`. -/
def hasSuffix (s suf : GoString) : Bool := s.drop (s.length - suf.length) == suf

/-- `strings.Count(s, string(c))` for a one-byte separator. -/
def countByte (s : GoString) (c : UInt8) : Nat := (s.filter (fun b => b == c)).length

/-- `strings.Contains(s, string(c))` for a one-byte separator. -/
def containsByte (s : GoString) (c : UInt8) : Bool := s.any (fun b => b == c)

/-- `strings.Cut(s, string(c))` for a one-byte separator: the text before and
after the first `c`, and whether `c` was found. -/
def cut : GoString → UInt8 → GoString × GoString × Bool
  | [], _ => ([], [], false)
  | b :: s, c =>
    if b == c then ([], s, true)
    else ((b :: (cut s c).1), (cut s c).2.1, (cut s c).2.2)

/-- `strings.Index(s, sep)`, `none` standing for `-1`. -/
def index : GoString → GoString → Option Nat
  | [], sep => if sep == [] then some 0 else none
  | b :: s, sep =>
    if hasPrefix (b :: s) sep then some 0 else (index s sep).map (· + 1)

/-- `strings.LastIndex(s, string(c))` for a one-byte separator, `none`
standing for `-1`. -/
def lastIndexByte : GoString → UInt8 → Option Nat
  | [], _ => none
  | b :: s, c =>
    match lastIndexByte s c with
    | some i => some (i + 1)
    | none => if b == c then some 0 else none

/-- `strings.ToLower` on a string of ASCII bytes. -/
def toLower (s : GoString) : GoString :=
  s.map (fun c => if ch 'A' ≤ c ∧ c ≤ ch 'Z' then c + 32 else c)

/-- `strings.Join(elems, sep)`. -/
def join : List GoString → GoString → GoString
  | [], _ => []
  | [a], _ => a
  | a :: b :: rest, sep => a ++ sep ++ join (b :: rest) sep

/-! ## Package `net/url`: escaping -/

/-- The `encoding` modes of `net/url`. -/
inductive encoding where
  | encodePath
  | encodePathSegment
  | encodeHost
  | encodeZone
  | encodeUserPassword
  | encodeQueryComponent
  | encodeFragment
  deriving DecidableEq, Repr

/-- Letters and digits, the first test of `shouldEscape`. -/
def isAlnum (c : UInt8) : Bool :=
  (ch 'a' ≤ c && c ≤ ch 'z') || (ch 'A' ≤ c && c ≤ ch 'Z') || (ch '0' ≤ c && c ≤ ch '9')

/-- `func shouldEscape(c byte, mode encoding) bool`. -/
def shouldEscape (c : UInt8) (mode : encoding) : Bool :=
  if isAlnum c then false
  else if (mode == .encodeHost || mode == .encodeZone) &&
      containsByte (str "!$&'()*+,;=:[]<>\"") c then false
  else if containsByte (str "-_.~") c then false
  else if containsByte (str "$&+,/:;=?@") c then
    match mode with
    | .encodePath => c == ch '?'
    | .encodePathSegment => c == ch '/' || c == ch ';' || c == ch ',' || c == ch '?'
    | .encodeUserPassword => c == ch '@' || c == ch '/' || c == ch '?' || c == ch ':'
    | .encodeQueryComponent => true
    | .encodeFragment => false
    | .encodeHost => true
    | .encodeZone => true
  else if mode == .encodeFragment && containsByte (str "!()*") c then false
  else true

/-- The digit `"0123456789ABCDEF"[n]`. -/
def upperhex (n : UInt8) : UInt8 := (str "0123456789ABCDEF").getD n.toNat 0

/-- `func escape(s string, mode encoding) string`. -/
def escape (s : GoString) (mode : encoding) : GoString :=
  s.flatMap fun c =>
    if c == ch ' ' && mode == .encodeQueryComponent then [ch '+']
    else if shouldEscape c mode then [ch '%', upperhex (c >>> 4), upperhex (c &&& 15)]
    else [c]

/-- `func QueryEscape(s string) string`. -/
def QueryEscape (s : GoString) : GoString := escape s .encodeQueryComponent

/-- `func ishex(c byte) bool`. -/
def ishex (c : UInt8) : Bool :=
  (ch '0' ≤ c && c ≤ ch '9') || (ch 'a' ≤ c && c ≤ ch 'f') || (ch 'A' ≤ c && c ≤ ch 'F')

/-- `func unhex(c byte) byte`. -/
def unhex (c : UInt8) : UInt8 :=
  if ch '0' ≤ c && c ≤ ch '9' then c - ch '0'
  else if ch 'a' ≤ c && c ≤ ch 'f' then c - ch 'a' + 10
  else if ch 'A' ≤ c && c ≤ ch 'F' then c - ch 'A' + 10
  else 0

/-- The first loop of `unescape`: whether every `%` starts a well-formed escape
that the mode allows, and no byte is one the host modes reject. -/
def unescapeValid (mode : encoding) : GoString → Bool
  | [] => true
  | c :: rest =>
    if c == ch '%' then
      match rest with
      | a :: b :: rest2 =>
        if !ishex a || !ishex b then false
        else if mode == .encodeHost && unhex a < 8 && [c, a, b] != str "%25" then false
        else if mode == .encodeZone && [c, a, b] != str "%25" &&
            (unhex a <<< 4 ||| unhex b) != ch ' ' &&
            shouldEscape (unhex a <<< 4 ||| unhex b) .encodeHost then false
        else unescapeValid mode rest2
      | _ => false
    else if (mode == .encodeHost || mode == .encodeZone) && c < 0x80 &&
        shouldEscape c .encodeHost then false
    else unescapeValid mode rest

/-- The second loop of `unescape`: the decoded bytes. -/
def unescapeBytes (mode : encoding) : GoString → GoString
  | [] => []
  | c :: rest =>
    if c == ch '%' then
      match rest with
      | a :: b :: rest2 => (unhex a <<< 4 ||| unhex b) :: unescapeBytes mode rest2
      | _ => []
    else if c == ch '+' then
      (if mode == .encodeQueryComponent then ch ' ' else ch '+') :: unescapeBytes mode rest
    else c :: unescapeBytes mode rest

/-- `func unescape(s string, mode encoding) (string, error)`; `none` is an
error. -/
def unescape (s : GoString) (mode : encoding) : Option GoString :=
  if unescapeValid mode s then some (unescapeBytes mode s) else none

/-- `func validEncoded(s string, mode encoding) bool`. -/
def validEncoded (s : GoString) (mode : encoding) : Bool :=
  s.all fun c =>
    containsByte (str "!$&'()*+,;=:@[]%") c || !shouldEscape c mode

/-! ## Package `net/url`: parsing and printing -/

/-- The type `url.Userinfo`. -/
structure Userinfo where
  username : GoString := []
  password : GoString := []
  passwordSet : Bool := false
  deriving DecidableEq, Repr

/-- The type `url.URL`. -/
structure URL where
  Scheme : GoString := []
  Opaque : GoString := []
  User : Option Userinfo := none
  Host : GoString := []
  Path : GoString := []
  RawPath : GoString := []
  OmitHost : Bool := false
  ForceQuery : Bool := false
  RawQuery : GoString := []
  Fragment : GoString := []
  RawFragment : GoString := []
  deriving DecidableEq, Repr

/-- `func stringContainsCTLByte(s string) bool`. -/
def stringContainsCTLByte (s : GoString) : Bool := s.any (fun b => b < ch ' ' || b == 0x7f)

/-- The loop of `getScheme`, at index `i` with `rest = rawURL[i:]`; `none` is
the error "missing protocol scheme". -/
def getSchemeLoop (rawURL : GoString) : Nat → GoString → Option (GoString × GoString)
  | _, [] => some ([], rawURL)
  | i, c :: rest =>
    if (ch 'a' ≤ c && c ≤ ch 'z') || (ch 'A' ≤ c && c ≤ ch 'Z') then
      getSchemeLoop rawURL (i + 1) rest
    else if (ch '0' ≤ c && c ≤ ch '9') || c == ch '+' || c == ch '-' || c == ch '.' then
      if i == 0 then some ([], rawURL) else getSchemeLoop rawURL (i + 1) rest
    else if c == ch ':' then
      if i == 0 then none else some (rawURL.take i, rawURL.drop (i + 1))
    else some ([], rawURL)

/-- `func getScheme(rawURL string) (scheme, path string, err error)`. -/
def getScheme (rawURL : GoString) : Option (GoString × GoString) :=
  getSchemeLoop rawURL 0 rawURL

/-- `func validOptionalPort(port string) bool`. -/
def validOptionalPort : GoString → Bool
  | [] => true
  | c :: rest => c == ch ':' && rest.all (fun b => ch '0' ≤ b && b ≤ ch '9')

/-- `func validUserinfo(s string) bool`. -/
def validUserinfo (s : GoString) : Bool :=
  s.all fun r => isAlnum r || containsByte (str "-._:~!$&'()*+,;=%@") r

/-- `func parseHost(host string) (string, error)`. -/
def parseHost (host : GoString) : Option GoString :=
  if hasPrefix host (str "[") then
    match lastIndexByte host (ch ']') with
    | none => none
    | some i =>
      if !validOptionalPort (host.drop (i + 1)) then none
      else
        match index (host.take i) (str "%25") with
        | some zone =>
          match unescape (host.take zone) .encodeHost,
                unescape ((host.take i).drop zone) .encodeZone,
                unescape (host.drop i) .encodeHost with
          | some host1, some host2, some host3 => some (host1 ++ host2 ++ host3)
          | _, _, _ => none
        | none => unescape host .encodeHost
  else
    match lastIndexByte host (ch ':') with
    | some i =>
      if !validOptionalPort (host.drop i) then none else unescape host .encodeHost
    | none => unescape host .encodeHost

/-- `func parseAuthority(authority string) (user *Userinfo, host string, err error)`. -/
def parseAuthority (authority : GoString) : Option (Option Userinfo × GoString) :=
  match lastIndexByte authority (ch '@') with
  | none => (parseHost authority).map fun host => (none, host)
  | some i =>
    match parseHost (authority.drop (i + 1)) with
    | none => none
    | some host =>
      let userinfo := authority.take i
      if !validUserinfo userinfo then none
      else if !containsByte userinfo (ch ':') then
        (unescape userinfo .encodeUserPassword).map fun u =>
          (some { username := u, password := [], passwordSet := false }, host)
      else
        match unescape (cut userinfo (ch ':')).1 .encodeUserPassword,
              unescape (cut userinfo (ch ':')).2.1 .encodeUserPassword with
        | some username, some password =>
          some (some { username := username, password := password, passwordSet := true }, host)
        | _, _ => none

/-- `func (u *URL) setPath(p string) error`. -/
def URL.setPath (u : URL) (p : GoString) : Option URL :=
  match unescape p .encodePath with
  | none => none
  | some path =>
    some { u with Path := path,
                  RawPath := if p == escape path .encodePath then [] else p }

/-- `func (u *URL) setFragment(f string) error`. -/
def URL.setFragment (u : URL) (f : GoString) : Option URL :=
  match unescape f .encodeFragment with
  | none => none
  | some frag =>
    some { u with Fragment := frag,
                  RawFragment := if f == escape frag .encodeFragment then [] else f }

/-- The second half of `parse`, after scheme and query have been split off
into `url`: opaque form, authority and path of `rest`. -/
def parseHier (url : URL) (rest : GoString) : Option URL :=
  if !hasPrefix rest (str "/") && url.Scheme != [] then
    some { url with Opaque := rest }
  else if !hasPrefix rest (str "/") && containsByte (cut rest (ch '/')).1 (ch ':') then
    none
  else if (url.Scheme != [] || !hasPrefix rest (str "///")) && hasPrefix rest (str "//") then
    match parseAuthority (cut (rest.drop 2) (ch '/')).1 with
    | none => none
    | some (user, host) =>
      URL.setPath { url with User := user, Host := host }
        (if (cut (rest.drop 2) (ch '/')).2.2
         then (rest.drop 2).drop (cut (rest.drop 2) (ch '/')).1.length else [])
  else if url.Scheme != [] && hasPrefix rest (str "/") then
    URL.setPath { url with OmitHost := true } rest
  else
    URL.setPath url rest

/-- `func parse(rawURL string, viaRequest bool) (*URL, error)` with
`viaRequest = false`; `none` is an error (the caller then returns nil). -/
def parse (rawURL : GoString) : Option URL :=
  if stringContainsCTLByte rawURL then none
  else if rawURL == str "*" then some { Path := str "*" }
  else
    match getScheme rawURL with
    | none => none
    | some (scheme, rest) =>
      if hasSuffix rest (str "?") && countByte rest (ch '?') == 1 then
        parseHier { Scheme := toLower scheme, ForceQuery := true }
          (rest.take (rest.length - 1))
      else
        parseHier { Scheme := toLower scheme, RawQuery := (cut rest (ch '?')).2.1 }
          (cut rest (ch '?')).1

/-- `func Parse(rawURL string) (*URL, error)`; `none` is the result
`(nil, err)`. -/
def Parse (rawURL : GoString) : Option URL :=
  match parse (cut rawURL (ch '#')).1 with
  | none => none
  | some url =>
    if (cut rawURL (ch '#')).2.1 == [] then some url
    else URL.setFragment url (cut rawURL (ch '#')).2.1

/-- `func (u *Userinfo) String() string` for a non-nil receiver. -/
def Userinfo.String (u : Userinfo) : GoString :=
  if u.passwordSet then
    escape u.username .encodeUserPassword ++ str ":" ++ escape u.password .encodeUserPassword
  else escape u.username .encodeUserPassword

/-- `func (u *URL) EscapedPath() string`. -/
def URL.EscapedPath (u : URL) : GoString :=
  if u.RawPath != [] && validEncoded u.RawPath .encodePath &&
      unescape u.RawPath .encodePath == some u.Path then u.RawPath
  else if u.Path == str "*" then str "*"
  else escape u.Path .encodePath

/-- `func (u *URL) EscapedFragment() string`. -/
def URL.EscapedFragment (u : URL) : GoString :=
  if u.RawFragment != [] && validEncoded u.RawFragment .encodeFragment &&
      unescape u.RawFragment .encodeFragment == some u.Fragment then u.RawFragment
  else escape u.Fragment .encodeFragment

/-- The part of `URL.String` written when `Opaque` is empty: authority and
path. -/
def URL.hierPart (u : URL) : GoString :=
  let buf0 : GoString := if u.Scheme != [] then u.Scheme ++ str ":" else []
  let buf1 : GoString :=
    if u.Scheme != [] || u.Host != [] || u.User.isSome then
      if u.OmitHost && u.Host == [] && u.User.isNone then buf0
      else
        (if u.Host != [] || u.Path != [] || u.User.isSome then buf0 ++ str "//" else buf0) ++
        (match u.User with
         | some ui => ui.String ++ str "@"
         | none => []) ++
        (if u.Host != [] then escape u.Host .encodeHost else [])
    else buf0
  let path := u.EscapedPath
  let buf2 : GoString :=
    if path != [] && path.head? != some (ch '/') && u.Host != [] then buf1 ++ str "/" else buf1
  let buf3 : GoString :=
    if buf2.length == 0 && containsByte (cut path (ch '/')).1 (ch ':') then buf2 ++ str "./"
    else buf2
  buf3 ++ path

/-- `func (u *URL) String() string`. -/
def URL.String (u : URL) : GoString :=
  (if u.Opaque != [] then
     (if u.Scheme != [] then u.Scheme ++ str ":" else []) ++ u.Opaque
   else u.hierPart) ++
  (if u.ForceQuery || u.RawQuery != [] then str "?" ++ u.RawQuery else []) ++
  (if u.Fragment != [] then str "#" ++ u.EscapedFragment else [])

/-! ## Query encoding (`go-querystring` and `url.Values`) -/

/-- `fmt.Sprint` of an `int`: the decimal digits, with a leading `-` for a
negative number. -/
def formatInt (i : Int) : GoString :=
  if i < 0 then ch '-' :: (Nat.toDigits 10 i.natAbs).map ch
  else (Nat.toDigits 10 i.natAbs).map ch

/-- The type `url.Values` (`map[string][]string`): each key once, its values
in the order added. -/
abbrev Values := List (GoString × List GoString)

/-- `func (v Values) Add(key, value string)`. -/
def Values.Add : Values → GoString → GoString → Values
  | [], key, value => [(key, [value])]
  | (k, vs) :: rest, key, value =>
    if k == key then (k, vs ++ [value]) :: rest
    else (k, vs) :: Values.Add rest key value

/-- The order `<` of Go strings: lexicographic on bytes. -/
def strLt : GoString → GoString → Bool
  | _, [] => false
  | [], _ :: _ => true
  | a :: as, b :: bs => a < b || (a == b && strLt as bs)

/-- Insertion of a key into a sorted list of keys. -/
def insertKey (k : GoString) : List GoString → List GoString
  | [] => [k]
  | x :: xs => if strLt x k then x :: insertKey k xs else k :: x :: xs

/-- `slices.Sort(keys)`. -/
def sortKeys (keys : List GoString) : List GoString := keys.foldr insertKey []

/-- The values stored under a key. -/
def Values.Get (v : Values) (key : GoString) : List GoString :=
  match v.find? (fun kv => kv.1 == key) with
  | some kv => kv.2
  | none => []

/-- `func (v Values) Encode() string`: the keys in sorted order, each value as
`key=value`, both query-escaped, joined by `&`. -/
def Values.Encode (v : Values) : GoString :=
  (sortKeys (v.map Prod.fst)).foldl
    (fun buf k =>
      (Values.Get v k).foldl
        (fun buf x =>
          (if buf.length > 0 then buf ++ str "&" else buf) ++
            QueryEscape k ++ str "=" ++ QueryEscape x)
        buf)
    []

/-- A `[]string` field tagged `url:"name,omitempty,comma"`: skipped when the
slice is empty, else one value, the elements joined by commas. -/
def addCommaField (v : Values) (name : GoString) (elems : List GoString) : Values :=
  if elems.length == 0 then v else v.Add name (join elems (str ","))

/-- An `int` field tagged `url:"name,omitempty"`. -/
def addIntField (v : Values) (name : GoString) (i : Int) : Values :=
  if i == 0 then v else v.Add name (formatInt i)

/-- A `string` field tagged `url:"name,omitempty"`. -/
def addStringField (v : Values) (name : GoString) (x : GoString) : Values :=
  if x.length == 0 then v else v.Add name x

/-- `reflectValue` of `go-querystring` on a `GetOptions` struct whose two
slices hold `includes` and `excludes`: the fields are visited in declaration
order under the names of their `url` tags, and `Meta` (tagged `url:"-"`) is
skipped. -/
def reflectValue (includes excludes : List GoString) (g : GetOptions) : Values :=
  let v0 : Values := []
  let v1 := addCommaField v0 (str "include") includes
  let v2 := addCommaField v1 (str "exclude") excludes
  let v3 := addIntField v2 (str "page") g.Page
  let v4 := addIntField v3 (str "per_page") g.PerPage
  let v5 := addStringField v4 (str "search") g.Search
  let v6 := addStringField v5 (str "sort_by") g.SortBy
  addStringField v6 (str "sort_direction") g.SortDirection

/-- `query.Values(g)` for a `*GetOptions`: no values for a nil pointer. -/
def queryValues (h : Heap) : Ptr → Values
  | none => []
  | some a =>
    reflectValue (h.elems (h.deref a).Includes) (h.elems (h.deref a).Excludes) (h.deref a)

/-- `func (g *GetOptions) Encode() string`. -/
def Encode (h : Heap) (g : Ptr) : GoString := Values.Encode (queryValues h g)

/-- `func (g *GetOptions) WithQuery(apiPath string) string`. -/
def WithQuery (h : Heap) (g : Ptr) (apiPath : GoString) : GoString :=
  if Encode h g != [] then apiPath ++ str "?" ++ Encode h g else apiPath

/-! ## Pagination -/

/-- A run-time panic. -/
inductive Panic where
  | nilPointerDereference
  deriving DecidableEq, Repr

instance {α : Type} [DecidableEq α] : DecidableEq (Except Panic α)
  | .ok a, .ok b => if e : a = b then isTrue (by rw [e]) else isFalse (by intro e2; cases e2; exact e rfl)
  | .error a, .error b =>
    if e : a = b then isTrue (by rw [e]) else isFalse (by intro e2; cases e2; exact e rfl)
  | .ok _, .error _ => isFalse (by intro e; cases e)
  | .error _, .ok _ => isFalse (by intro e; cases e)

/-- `func stripQuery(inURL string) string`.  The error of `url.Parse` is
dropped; on an error `u` is nil and the assignment `u.RawQuery = ""` panics. -/
def stripQuery (inURL : GoString) : Except Panic GoString :=
  match Parse inURL with
  | none => .error .nilPointerDereference
  | some u => .ok (URL.String { u with RawQuery := [] })

/-- The object `optsCopy` of `nextPage` after `optsCopy.Page = meta.CurrentPageNum + 1`. -/
def advance (h : Heap) (m : meta) (opts : Ptr) : Heap × Addr :=
  ((CopyOrNew h opts).1.store (CopyOrNew h opts).2
     { (CopyOrNew h opts).1.deref (CopyOrNew h opts).2 with
       Page := wrapInt (m.CurrentPageNum + 1) },
   (CopyOrNew h opts).2)

/-- `func nextPage(meta meta, opts *GetOptions) (path string)`: the path
returned and the heap after the call, or a panic. -/
def nextPage (h : Heap) (m : meta) (opts : Ptr) : Except Panic (GoString × Heap) :=
  match m.Next with
  | some next =>
    if GetPage h opts == 0 then
      match stripQuery next.Href with
      | .error e => .error e
      | .ok p => .ok (WithQuery (advance h m opts).1 (some (advance h m opts).2) p,
                      (advance h m opts).1)
    else
      match opts with
      | some a => .ok ([], h.store a { h.deref a with Meta := m })
      | none => .ok ([], h)
  | none =>
    match opts with
    | some a => .ok ([], h.store a { h.deref a with Meta := m })
    | none => .ok ([], h)

/-! ## Concrete heaps used in the examples -/

/-- The capacity the Go runtime gives a small slice that has to grow: twice
the old capacity (`append` takes the needed length when that is more). -/
def doubling (cap _needed : Nat) : Nat := 2 * cap

/-- One object `{Includes: ["a","b"], Excludes: ["z"], PerPage: 10}`, each
slice filling its own backing array. -/
def heapPlain : Heap :=
  { arrays := [[str "a", str "b"], [str "z"]],
    objs := [{ Includes := ⟨0, 0, 2, 2⟩, Excludes := ⟨1, 0, 1, 1⟩, PerPage := 10 }] }

/-- The heap after `s := []string{"a","b","c"}` and
`g := &GetOptions{Includes: s[:1], Excludes: s}`. -/
def heapOverlap : Heap :=
  { arrays := [[str "a", str "b", str "c"]],
    objs := [{ Includes := ⟨0, 0, 1, 3⟩, Excludes := ⟨0, 0, 3, 3⟩ }] }

/-- The heap after `o := &GetOptions{Includes: []string{"a"}}`. -/
def heapSingle : Heap :=
  { arrays := [[str "a"]], objs := [{ Includes := ⟨0, 0, 1, 1⟩ }] }

/-- The heap after `arr := []string{"p","q"}` and
`g := &GetOptions{Includes: arr[1:1]}`. -/
def heapAlias : Heap :=
  { arrays := [[str "p", str "q"]], objs := [{ Includes := ⟨0, 1, 0, 1⟩ }] }

/-- The slice `arr` of `heapAlias`. -/
def refsAlias : Slice := ⟨0, 0, 2, 2⟩

/-- The heap after `all := []string{"a","b","c"}` and
`g := &GetOptions{Includes: all[1:2]}`. -/
def heapWindow : Heap :=
  { arrays := [[str "a", str "b", str "c"]], objs := [{ Includes := ⟨0, 1, 1, 2⟩ }] }

/-- The slice `all` of `heapWindow`. -/
def refsWindow : Slice := ⟨0, 0, 3, 3⟩

/-- The heap after `opts := &GetOptions{Page: 5}`. -/
def heapPinned : Heap := { objs := [{ Page := 5 }] }

/-- The metadata of the examples: next link `/batches?foo=bar`, current page 2. -/
def metaBatches : meta := { Next := some ⟨str "/batches?foo=bar"⟩, CurrentPageNum := 2 }

/-- `func (g *GetOptions) GetOptions() *GetOptions`: a new object that takes
over the two slices of a non-nil receiver.  (The method cannot bear the name
of its type here.) -/
def GetOptions.getOptions (h : Heap) : Ptr → Heap × Addr
  | none => h.alloc {}
  | some a => h.alloc { Includes := (h.deref a).Includes, Excludes := (h.deref a).Excludes }

/-! ## The reference definition of `Encode` -/

/-- The unreserved characters of RFC 3986: letters, digits, `-`, `.`, `_`, `~`. -/
def unreserved (c : UInt8) : Bool := isAlnum c || containsByte (str "-._~") c

/-- Standard URL percent-encoding: every byte that is not unreserved is
written `%XX`. -/
def percentEscaped (s : GoString) : GoString :=
  s.flatMap fun c => if unreserved c then [c] else [ch '%', upperhex (c >>> 4), upperhex (c &&& 15)]

/-- The `key, value` pairs of an option set in ascending key order, a field at
its default or empty value omitted, the two lists comma-joined, the two
numbers in decimal. -/
def pairsSpec (includes excludes : List GoString) (g : GetOptions) :
    List (GoString × GoString) :=
  (if excludes = [] then [] else [(str "exclude", join excludes (str ","))]) ++
  (if includes = [] then [] else [(str "include", join includes (str ","))]) ++
  (if g.Page = 0 then [] else [(str "page", formatInt g.Page)]) ++
  (if g.PerPage = 0 then [] else [(str "per_page", formatInt g.PerPage)]) ++
  (if g.Search = [] then [] else [(str "search", g.Search)]) ++
  (if g.SortBy = [] then [] else [(str "sort_by", g.SortBy)]) ++
  (if g.SortDirection = [] then [] else [(str "sort_direction", g.SortDirection)])

/-- The `&`-join of `key=escaped(value)` over a list of pairs. -/
def encodeSpec (esc : GoString → GoString) (pairs : List (GoString × GoString)) : GoString :=
  join (pairs.map fun kv => kv.1 ++ str "=" ++ esc kv.2) (str "&")

/-! ## `batches.go` -/

/-- The struct `Batch`; the fields whose types are declared outside the two
files (`CreatedAt`, `Project`, `Facilities`, `Devices`) are left out. -/
structure Batch where
  ID : GoString := []
  State : GoString := []
  Quantity : Int := 0
  Href : GoString := []
  deriving DecidableEq, Repr

/-- Modelled from the spec: the type `Response` is declared outside the two
files; it is the "response metadata (status, headers)" the transport returns,
kept here as the status code. -/
structure Response where
  StatusCode : Int := 0
  deriving DecidableEq, Repr

/-- A Go `error` value. -/
structure GoError where
  msg : GoString
  deriving DecidableEq, Repr

/-- One call of `client.DoRequest(method, path, body, v)`. -/
structure Request where
  method : GoString
  path : GoString
  hasBody : Bool
  deriving DecidableEq, Repr

/-- What a call of `client.DoRequest` gives back: the response (a pointer,
possibly nil), the error (nil when absent) and the value it left in the
target `v`. -/
structure Reply (T : Type) where
  resp : Option Response
  err : Option GoError
  v : T

/-- Modelled from the spec: `Client.DoRequest` is declared outside the two
files; it is the transport collaborator, "treated as opaque": a function of
the number of requests issued before and of the request. -/
abbrev Transport (T : Type) := Nat → Request → Reply T

/-- A `[]Batch`: nil or its elements. -/
abbrev BatchSlice := Option (List Batch)

/-- The constant `batchBasePath`. -/
def batchBasePath : GoString := str "/batches"

/-- What a service operation returns (value, response, error) and the
requests it issued, in order. -/
structure Outcome (T : Type) where
  value : T
  resp : Option Response
  err : Option GoError
  requests : List Request

/-- `func (s *BatchServiceOp) Get(batchID string, listOpt *ListOptions)`.
`createURL` (a method of `ListOptions` declared outside the two files) is a
parameter. -/
def BatchServiceOp.Get (DoRequest : Transport Batch) (createURL : Heap → Addr → GoString)
    (h : Heap) (batchID : GoString) (listOpt : Ptr) : Outcome (Option Batch) :=
  let params := match listOpt with
    | some a => createURL h a
    | none => []
  let path := batchBasePath ++ str "/" ++ batchID ++ str "?" ++ params
  let req : Request := { method := str "GET", path := path, hasBody := false }
  let r := DoRequest 0 req
  match r.err with
  | some e => { value := none, resp := r.resp, err := some e, requests := [req] }
  | none => { value := some r.v, resp := r.resp, err := none, requests := [req] }

/-- The builtin `append(batches, subset.Batches...)` onto the nil slice
`batches`: nil again when there is nothing to append. -/
def appendToNil : BatchSlice → BatchSlice
  | none => none
  | some [] => none
  | some (b :: bs) => some (b :: bs)

/-- `func (s *BatchServiceOp) List(projectID string, listOpt *ListOptions)`.
The target `subset` is a `batchesList`, whose one field `Batches` is a slice
(nil or its elements).  `projectBasePath` (a constant) and `createURL` (a
method of `ListOptions`), both declared outside the two files, are
parameters. -/
def BatchServiceOp.List (DoRequest : Transport (BatchSlice))
    (projectBasePath : GoString) (createURL : Heap → Addr → GoString)
    (h : Heap) (projectID : GoString) (listOpt : Ptr) : Outcome (BatchSlice) :=
  let params := match listOpt with
    | some a => createURL h a
    | none => []
  let path := projectBasePath ++ str "/" ++ projectID ++ batchBasePath ++ str "?" ++ params
  let req : Request := { method := str "GET", path := path, hasBody := false }
  let r := DoRequest 0 req
  match r.err with
  | some e => { value := none, resp := r.resp, err := some e, requests := [req] }
  | none => { value := appendToNil r.v, resp := r.resp, err := none, requests := [req] }

/-- `func (s *BatchServiceOp) Create(projectID string, request *BatchDeviceCreateRequest)`.
The request body is passed to the transport as is; only its presence is
recorded. -/
def BatchServiceOp.Create (DoRequest : Transport (BatchSlice))
    (projectBasePath : GoString) (projectID : GoString) (hasRequest : Bool) :
    Outcome (BatchSlice) :=
  let path := projectBasePath ++ str "/" ++ projectID ++ str "/devices/batch"
  let req : Request := { method := str "POST", path := path, hasBody := hasRequest }
  let r := DoRequest 0 req
  match r.err with
  | some e => { value := none, resp := r.resp, err := some e, requests := [req] }
  | none => { value := r.v, resp := r.resp, err := none, requests := [req] }

/-- A transport that serves two pages: the first request gets two batches (its
response carries a link to a next page, which `batchesList` has no field
for), the second request gets one batch. -/
def twoPages : Transport (BatchSlice)
  | 0, _ => { resp := some { StatusCode := 200 }, err := none,
              v := some [{ ID := str "b1" }, { ID := str "b2" }] }
  | _, _ => { resp := some { StatusCode := 200 }, err := none, v := some [{ ID := str "b3" }] }

/-- A transport whose every request fails. -/
def failing (T : Type) (v : T) : Transport T :=
  fun _ _ => { resp := some { StatusCode := 500 }, err := some ⟨str "boom"⟩, v := v }

/-- The heap after `o := &GetOptions{Includes: []string{""}}`. -/
def heapBlank : Heap := { arrays := [[str ""]], objs := [{ Includes := ⟨0, 0, 1, 1⟩ }] }

/-- The heap after `o := &GetOptions{Search: "a b"}`. -/
def heapSpace : Heap := { objs := [{ Search := str "a b" }] }

/-- The heap after `o := &GetOptions{Includes: []string{"facility"}, PerPage: 10}`. -/
def heapFacility : Heap :=
  { arrays := [[str "facility"]], objs := [{ Includes := ⟨0, 0, 1, 1⟩, PerPage := 10 }] }

/-! # Properties -/

/-! ## Lists -/

theorem take_set_succ {α : Type} (v : α) : ∀ (B : List α) (len : Nat), len < B.length →
    (B.set len v).take (len + 1) = B.take len ++ [v]
  | [], _, h => by simp at h
  | _ :: _, 0, _ => by simp
  | b :: B, n + 1, h => by
      have := take_set_succ v B n (by simpa using h)
      simp [List.set, List.take, this]

theorem drop_set_add {α : Type} (v : α) : ∀ (A : List α) (off len : Nat),
    (A.set (off + len) v).drop off = (A.drop off).set len v
  | [], _, _ => by simp
  | _ :: _, 0, _ => by simp
  | a :: A, off + 1, len => by
      have := drop_set_add v A off len
      have e : off + 1 + len = (off + len) + 1 := by omega
      simp [e, List.set, this]

theorem window_set {α : Type} (A : List α) (off len : Nat) (v : α)
    (hlt : off + len < A.length) :
    ((A.set (off + len) v).drop off).take (len + 1) = (A.drop off).take len ++ [v] := by
  rw [drop_set_add, take_set_succ]
  simp; omega

/-! ## Slices and `append` -/

theorem Heap.elems_length (h : Heap) (s : Slice) (ok : h.sliceOK s) :
    (h.elems s).length = s.len := by
  obtain ⟨h1, h2⟩ := ok
  unfold Heap.elems
  rcases h2 with h2 | ⟨_, h2⟩
  · have : s.len = 0 := by omega
    simp [this]
  · simp; omega

theorem Heap.array_set_self (h : Heap) (i : Nat) (A : List GoString) (hi : i < h.arrays.length) :
    ({ h with arrays := h.arrays.set i A } : Heap).array i = A := by
  simp [Heap.array, List.getD_eq_getElem?_getD, List.getElem?_set, hi]

theorem Heap.array_push (h : Heap) (A : List GoString) :
    ({ h with arrays := h.arrays ++ [A] } : Heap).array h.arrays.length = A := by
  simp [Heap.array, List.getD_eq_getElem?_getD]

theorem append_objs (grow : Nat → Nat → Nat) (h : Heap) (s : Slice) (v : GoString) :
    (append grow h s v).1.objs = h.objs := by
  unfold append; split <;> rfl

theorem append_elems (grow : Nat → Nat → Nat) (h : Heap) (s : Slice) (v : GoString)
    (ok : h.sliceOK s) :
    (append grow h s v).1.elems (append grow h s v).2 = h.elems s ++ [v] := by
  have hlen := h.elems_length s ok
  obtain ⟨h1, h2⟩ := ok
  unfold append
  split
  · rename_i hlt
    rcases h2 with h2 | ⟨h2, h3⟩
    · omega
    · simp only [Heap.elems]
      rw [Heap.array_set_self h _ _ h2]
      exact window_set _ _ _ _ (by omega)
  · show ((Heap.array { h with arrays := h.arrays ++ [_] } h.arrays.length).drop 0).take
      (s.len + 1) = h.elems s ++ [v]
    rw [Heap.array_push, List.drop_zero]
    exact List.take_left' (by simp [hlen])

theorem append_sliceOK (grow : Nat → Nat → Nat) (h : Heap) (s : Slice) (v : GoString)
    (ok : h.sliceOK s) :
    (append grow h s v).1.sliceOK (append grow h s v).2 := by
  have hlen := h.elems_length s ok
  obtain ⟨h1, h2⟩ := ok
  unfold append
  split
  · rename_i hlt
    rcases h2 with h2 | ⟨h2, h3⟩
    · omega
    · refine ⟨by simp; omega, Or.inr ⟨by simpa using h2, ?_⟩⟩
      rw [Heap.array_set_self h _ _ h2]
      simpa using h3
  · refine ⟨Nat.le_max_left _ _, Or.inr ⟨?_, ?_⟩⟩
    · show h.arrays.length < (h.arrays ++ [_]).length
      simp
    · show 0 + max (s.len + 1) (grow s.cap (s.len + 1)) ≤
        (Heap.array { h with arrays := h.arrays ++ [_] } h.arrays.length).length
      rw [Heap.array_push]
      simp [hlen]
      omega

/-! ## Objects -/

theorem Heap.deref_congr (h h' : Heap) (e : h.objs = h'.objs) (a : Addr) :
    h.deref a = h'.deref a := by
  unfold Heap.deref; rw [e]

theorem Heap.deref_store_self (h : Heap) (a : Addr) (v : GetOptions) (ha : a < h.objs.length) :
    (h.store a v).deref a = v := by
  simp [Heap.deref, Heap.store, List.getD_eq_getElem?_getD, List.getElem?_set, ha]

theorem Heap.deref_store_other (h : Heap) (a b : Addr) (v : GetOptions) (hab : b ≠ a) :
    (h.store a v).deref b = h.deref b := by
  simp [Heap.deref, Heap.store, List.getD_eq_getElem?_getD, List.getElem?_set, Ne.symm hab]

theorem Heap.deref_alloc_self (h : Heap) (v : GetOptions) :
    (h.alloc v).1.deref (h.alloc v).2 = v := by
  simp [Heap.deref, Heap.alloc, List.getD_eq_getElem?_getD]

theorem Heap.deref_alloc_other (h : Heap) (v : GetOptions) (a : Addr) (ha : a < h.objs.length) :
    (h.alloc v).1.deref a = h.deref a := by
  simp [Heap.deref, Heap.alloc, List.getD_eq_getElem?_getD, List.getElem?_append_left ha]

theorem contains_iff (h : Heap) (s : Slice) (v : GoString) :
    contains h s v = true ↔ v ∈ h.elems s := by
  simp [contains, List.any_eq_true]

/-! ## One iteration of the loop of `Including` -/

theorem includeStep_spec (grow : Nat → Nat → Nat) (ret : Addr) (h : Heap) (v : GoString)
    (hr : ret < h.objs.length) (ok : h.sliceOK (h.deref ret).Includes) :
    (includeStep grow ret h v).objs.length = h.objs.length ∧
    (includeStep grow ret h v).sliceOK ((includeStep grow ret h v).deref ret).Includes ∧
    (includeStep grow ret h v).elems ((includeStep grow ret h v).deref ret).Includes =
      (if v ∈ h.elems (h.deref ret).Includes then h.elems (h.deref ret).Includes
       else h.elems (h.deref ret).Includes ++ [v]) ∧
    ((includeStep grow ret h v).deref ret).others = (h.deref ret).others ∧
    ∀ a, a ≠ ret → (includeStep grow ret h v).deref a = h.deref a := by
  unfold includeStep
  by_cases hc : v ∈ h.elems (h.deref ret).Includes
  · have : contains h (h.deref ret).Includes v = true := (contains_iff _ _ _).2 hc
    simp [this, hc, ok]
  · have hc2 : contains h (h.deref ret).Includes v = false := by
      rw [← Bool.not_eq_true, contains_iff]; exact hc
    simp only [hc2, Bool.not_false, if_true, hc, if_false]
    have hobjs := append_objs grow h (h.deref ret).Includes v
    have hr2 : ret < (append grow h (h.deref ret).Includes v).1.objs.length := by
      rw [hobjs]; exact hr
    have hd : ∀ a, (append grow h (h.deref ret).Includes v).1.deref a = h.deref a := by
      intro a; exact Heap.deref_congr _ _ hobjs a
    rw [Heap.deref_store_self _ _ _ hr2]
    refine ⟨by simp [Heap.store, hobjs], ?_, ?_, ?_, ?_⟩
    · exact append_sliceOK grow h _ v ok
    · exact append_elems grow h _ v ok
    · simp [GetOptions.others, hd]
    · intro a ha
      rw [Heap.deref_store_other _ _ _ _ ha]
      exact hd a

theorem includeStep_arrays (grow : Nat → Nat → Nat) (ret : Addr) (h : Heap) (v : GoString) :
    h.arrays.length ≤ (includeStep grow ret h v).arrays.length := by
  unfold includeStep
  split
  · show h.arrays.length ≤ (append grow h (h.deref ret).Includes v).1.arrays.length
    unfold append
    split <;> simp
  · exact Nat.le_refl _

theorem getD_set_arrays (A : List (List GoString)) (k i : Nat) (B : List GoString) :
    (A.set k B).getD i [] = if i = k ∧ k < A.length then B else A.getD i [] := by
  simp only [List.getD_eq_getElem?_getD, List.getElem?_set]
  by_cases e : k = i
  · subst e
    by_cases hk : k < A.length
    · simp [hk]
    · simp [hk]
      rw [List.getElem?_eq_none (by omega)]
      rfl
  · have e2 : ¬ i = k := fun x => e x.symm
    simp [e, e2]

/-- An `append` leaves every element of every existing backing array as it is
or overwrites it with the appended value. -/
theorem append_cell (grow : Nat → Nat → Nat) (h : Heap) (s : Slice) (v : GoString)
    (k p : Nat) (hk : k < h.arrays.length) :
    ((append grow h s v).1.array k).getD p [] = (h.array k).getD p [] ∨
    ((append grow h s v).1.array k).getD p [] = v := by
  unfold append
  split
  · simp only [Heap.array]
    rw [getD_set_arrays]
    split
    · rename_i hik
      obtain ⟨e, _⟩ := hik
      rw [e]
      simp only [List.getD_eq_getElem?_getD, List.getElem?_set]
      split
      · split
        · right; rfl
        · left
          rename_i e1 e2
          rw [List.getElem?_eq_none (by omega)]
      · left; rfl
    · left; rfl
  · left
    simp only [Heap.array, List.getD_eq_getElem?_getD]
    rw [List.getElem?_append_left hk]

theorem includeStep_cell (grow : Nat → Nat → Nat) (ret : Addr) (h : Heap) (v : GoString)
    (k p : Nat) (hk : k < h.arrays.length) :
    ((includeStep grow ret h v).array k).getD p [] = (h.array k).getD p [] ∨
    ((includeStep grow ret h v).array k).getD p [] = v := by
  unfold includeStep
  split
  · exact append_cell grow h _ v k p hk
  · left; rfl

/-! ## The loop of `Including` -/

theorem includeLoop_induct (grow : Nat → Nat → Nat) (ret : Addr) (refs : Slice)
    (P : Heap → Prop) (hstep : ∀ h v, P h → P (includeStep grow ret h v)) :
    ∀ (n i : Nat) (h : Heap), P h → P (includeLoop grow ret refs n i h) := by
  intro n
  induction n with
  | zero => intro i h hp; exact hp
  | succ n ih =>
    intro i h hp
    simp only [includeLoop]
    exact ih (i + 1) _ (hstep h _ hp)

/-- What the loop keeps, whatever values it reads: the number of objects, the
well-formedness of `ret.Includes`, the elements `ret.Includes` had (as a
prefix), duplicate-freedom, every other field of `ret` and every other
object. -/
theorem includeLoop_spec (grow : Nat → Nat → Nat) (ret : Addr) (refs : Slice) (h0 : Heap)
    (hr : ret < h0.objs.length) (ok : h0.sliceOK (h0.deref ret).Includes) (n i : Nat) :
    (includeLoop grow ret refs n i h0).objs.length = h0.objs.length ∧
    (includeLoop grow ret refs n i h0).sliceOK
      ((includeLoop grow ret refs n i h0).deref ret).Includes ∧
    h0.elems (h0.deref ret).Includes <+:
      (includeLoop grow ret refs n i h0).elems
        ((includeLoop grow ret refs n i h0).deref ret).Includes ∧
    ((h0.elems (h0.deref ret).Includes).Nodup →
      ((includeLoop grow ret refs n i h0).elems
        ((includeLoop grow ret refs n i h0).deref ret).Includes).Nodup) ∧
    ((includeLoop grow ret refs n i h0).deref ret).others = (h0.deref ret).others ∧
    (∀ a, a ≠ ret → (includeLoop grow ret refs n i h0).deref a = h0.deref a) ∧
    h0.arrays.length ≤ (includeLoop grow ret refs n i h0).arrays.length := by
  apply includeLoop_induct grow ret refs (fun h =>
    h.objs.length = h0.objs.length ∧ h.sliceOK (h.deref ret).Includes ∧
    h0.elems (h0.deref ret).Includes <+: h.elems (h.deref ret).Includes ∧
    ((h0.elems (h0.deref ret).Includes).Nodup → (h.elems (h.deref ret).Includes).Nodup) ∧
    (h.deref ret).others = (h0.deref ret).others ∧
    (∀ a, a ≠ ret → h.deref a = h0.deref a) ∧
    h0.arrays.length ≤ h.arrays.length)
  · intro h v ⟨p1, p2, p3, p4, p5, p6, p7⟩
    obtain ⟨s1, s2, s3, s4, s5⟩ := includeStep_spec grow ret h v (by rw [p1]; exact hr) p2
    refine ⟨s1.trans p1, s2, ?_, ?_, s4.trans p5, fun a ha => (s5 a ha).trans (p6 a ha),
      Nat.le_trans p7 (includeStep_arrays grow ret h v)⟩
    · rw [s3]
      split
      · exact p3
      · exact p3.trans (List.prefix_append _ _)
    · intro hn
      rw [s3]
      split
      · exact p4 hn
      · rename_i hv
        rw [List.nodup_append]
        refine ⟨p4 hn, by simp, ?_⟩
        intro a ha hb
        simp at hb
        subst hb
        exact hv ha
  · exact ⟨rfl, ok, List.prefix_refl _, fun x => x, rfl, fun _ _ => rfl, Nat.le_refl _⟩

/-- Every ref the loop has read is among `ret.Includes` afterwards, as the
backing array of `refs` holds it then: an element of `refs` that an append
overwrote holds the appended value. -/
theorem includeLoop_present (grow : Nat → Nat → Nat) (ret : Addr) (refs : Slice) :
    ∀ (n i : Nat) (h : Heap), ret < h.objs.length → h.sliceOK (h.deref ret).Includes →
      refs.arr < h.arrays.length →
      (∀ j, j < i → h.read refs j ∈ h.elems (h.deref ret).Includes) →
      ∀ j, j < i + n →
        (includeLoop grow ret refs n i h).read refs j ∈
          (includeLoop grow ret refs n i h).elems
            ((includeLoop grow ret refs n i h).deref ret).Includes := by
  intro n
  induction n with
  | zero => intro i h _ _ _ hall j hj; exact hall j hj
  | succ n ih =>
    intro i h hr ok hra hall j hj
    simp only [includeLoop]
    obtain ⟨s1, s2, s3, _, _⟩ := includeStep_spec grow ret h (h.read refs i) hr ok
    have hv : h.read refs i ∈ (includeStep grow ret h (h.read refs i)).elems
        ((includeStep grow ret h (h.read refs i)).deref ret).Includes := by
      rw [s3]; split
      · assumption
      · simp
    have hsub : ∀ x ∈ h.elems (h.deref ret).Includes,
        x ∈ (includeStep grow ret h (h.read refs i)).elems
          ((includeStep grow ret h (h.read refs i)).deref ret).Includes := by
      intro x hx
      rw [s3]; split
      · exact hx
      · simp [hx]
    refine ih (i + 1) _ (by rw [s1]; exact hr) s2
      (Nat.lt_of_lt_of_le hra (includeStep_arrays grow ret h _)) ?_ j (by omega)
    intro k hk
    rcases includeStep_cell grow ret h (h.read refs i) refs.arr (refs.off + k) hra with e | e
    · have e2 : (includeStep grow ret h (h.read refs i)).read refs k = h.read refs k := e
      rw [e2]
      by_cases hki : k < i
      · exact hsub _ (hall k hki)
      · have : k = i := by omega
        rw [this]; exact hv
    · have e2 : (includeStep grow ret h (h.read refs i)).read refs k = h.read refs i := e
      rw [e2]; exact hv

/-- When every ref still to be read is already present the loop changes
nothing. -/
theorem includeLoop_noop (grow : Nat → Nat → Nat) (ret : Addr) (refs : Slice) :
    ∀ (n i : Nat) (h : Heap),
      (∀ j, i ≤ j → j < i + n → h.read refs j ∈ h.elems (h.deref ret).Includes) →
      includeLoop grow ret refs n i h = h := by
  intro n
  induction n with
  | zero => intro i h _; rfl
  | succ n ih =>
    intro i h hall
    have hv : contains h (h.deref ret).Includes (h.read refs i) = true :=
      (contains_iff _ _ _).2 (hall i (Nat.le_refl _) (by omega))
    have hs : includeStep grow ret h (h.read refs i) = h := by simp [includeStep, hv]
    simp only [includeLoop, hs]
    exact ih (i + 1) h (fun j h1 h2 => hall j (by omega) (by omega))

theorem Heap.read_mem_elems (h : Heap) (s : Slice) (ok : h.sliceOK s) (j : Nat)
    (hj : j < s.len) : h.read s j ∈ h.elems s := by
  obtain ⟨h1, h2⟩ := ok
  rcases h2 with h2 | ⟨_, h2⟩
  · omega
  · have hlt : s.off + j < (h.array s.arr).length := by omega
    apply List.mem_iff_getElem?.2
    refine ⟨j, ?_⟩
    simp only [Heap.elems, Heap.read, List.getElem?_take, List.getElem?_drop, hj, if_true,
      List.getD_eq_getElem?_getD]
    rw [List.getElem?_eq_getElem hlt]
    rfl

/-! ## What the loop leaves untouched -/

theorem append_frame (grow : Nat → Nat → Nat) (A0 : List (List GoString)) (I : Slice)
    (h : Heap) (s : Slice) (v : GoString)
    (hlen : A0.length ≤ h.arrays.length)
    (hag : ∀ i, i < A0.length →
      ((h.array i).length = (A0.getD i []).length ∧
       ∀ j, ¬(i = I.arr ∧ I.off + I.len ≤ j ∧ j < I.off + I.cap) →
         (h.array i)[j]? = (A0.getD i [])[j]?))
    (ht : (s.arr = I.arr ∧ s.off = I.off ∧ s.cap = I.cap ∧ I.len ≤ s.len) ∨
          A0.length ≤ s.arr) :
    A0.length ≤ (append grow h s v).1.arrays.length ∧
    (∀ i, i < A0.length →
      (((append grow h s v).1.array i).length = (A0.getD i []).length ∧
       ∀ j, ¬(i = I.arr ∧ I.off + I.len ≤ j ∧ j < I.off + I.cap) →
         ((append grow h s v).1.array i)[j]? = (A0.getD i [])[j]?)) ∧
    (((append grow h s v).2.arr = I.arr ∧ (append grow h s v).2.off = I.off ∧
        (append grow h s v).2.cap = I.cap ∧ I.len ≤ (append grow h s v).2.len) ∨
      A0.length ≤ (append grow h s v).2.arr) := by
  unfold append
  split
  · rename_i hlt
    refine ⟨by simpa using hlen, ?_, ?_⟩
    · intro i hi
      obtain ⟨g1, g2⟩ := hag i hi
      simp only [Heap.array] at g1 g2 ⊢
      rw [getD_set_arrays]
      split
      · rename_i hik
        obtain ⟨rfl, hk⟩ := hik
        refine ⟨by simpa using g1, ?_⟩
        intro j hj
        rw [List.getElem?_set]
        split
        · rename_i hj2
          exfalso
          rcases ht with ⟨t1, t2, t3, t4⟩ | t
          · apply hj
            refine ⟨t1, ?_, ?_⟩ <;> omega
          · omega
        · exact g2 j hj
      · exact ⟨g1, g2⟩
    · rcases ht with ⟨t1, t2, t3, t4⟩ | t
      · left; exact ⟨t1, t2, t3, by simp; omega⟩
      · right; exact t
  · refine ⟨by simp; omega, ?_, Or.inr hlen⟩
    intro i hi
    obtain ⟨g1, g2⟩ := hag i hi
    have e : Heap.array { h with arrays := h.arrays ++ [h.elems s ++ [v] ++
        List.replicate (max (s.len + 1) (grow s.cap (s.len + 1)) - (s.len + 1)) []] } i =
        h.array i := by
      simp only [Heap.array, List.getD_eq_getElem?_getD]
      rw [List.getElem?_append_left (by omega)]
    simp only
    rw [e]
    exact ⟨g1, g2⟩

theorem includeStep_frame (grow : Nat → Nat → Nat) (ret : Addr) (A0 : List (List GoString))
    (I : Slice) (h : Heap) (v : GoString)
    (hr : ret < h.objs.length)
    (hlen : A0.length ≤ h.arrays.length)
    (hag : ∀ i, i < A0.length →
      ((h.array i).length = (A0.getD i []).length ∧
       ∀ j, ¬(i = I.arr ∧ I.off + I.len ≤ j ∧ j < I.off + I.cap) →
         (h.array i)[j]? = (A0.getD i [])[j]?))
    (ht : ((h.deref ret).Includes.arr = I.arr ∧ (h.deref ret).Includes.off = I.off ∧
            (h.deref ret).Includes.cap = I.cap ∧ I.len ≤ (h.deref ret).Includes.len) ∨
          A0.length ≤ (h.deref ret).Includes.arr) :
    ret < (includeStep grow ret h v).objs.length ∧
    A0.length ≤ (includeStep grow ret h v).arrays.length ∧
    (∀ i, i < A0.length →
      (((includeStep grow ret h v).array i).length = (A0.getD i []).length ∧
       ∀ j, ¬(i = I.arr ∧ I.off + I.len ≤ j ∧ j < I.off + I.cap) →
         ((includeStep grow ret h v).array i)[j]? = (A0.getD i [])[j]?)) ∧
    ((((includeStep grow ret h v).deref ret).Includes.arr = I.arr ∧
        ((includeStep grow ret h v).deref ret).Includes.off = I.off ∧
        ((includeStep grow ret h v).deref ret).Includes.cap = I.cap ∧
        I.len ≤ ((includeStep grow ret h v).deref ret).Includes.len) ∨
      A0.length ≤ ((includeStep grow ret h v).deref ret).Includes.arr) := by
  unfold includeStep
  split
  · obtain ⟨f1, f2, f3⟩ := append_frame grow A0 I h (h.deref ret).Includes v hlen hag ht
    have hobjs := append_objs grow h (h.deref ret).Includes v
    have hr2 : ret < (append grow h (h.deref ret).Includes v).1.objs.length := by
      rw [hobjs]; exact hr
    simp only
    rw [Heap.deref_store_self _ _ _ hr2]
    exact ⟨by simpa [Heap.store] using hr2, f1, f2, f3⟩
  · exact ⟨hr, hlen, hag, ht⟩

/-- Outside the spare capacity of the slice `I` that `ret.Includes` started
from, the backing arrays that existed before the loop are as they were,
whatever values the loop reads. -/
theorem includeLoop_frame (grow : Nat → Nat → Nat) (ret : Addr) (A0 : List (List GoString))
    (I refs : Slice) (n i : Nat) (h : Heap) (hr : ret < h.objs.length)
    (hlen : A0.length ≤ h.arrays.length)
    (hag : ∀ i, i < A0.length →
      ((h.array i).length = (A0.getD i []).length ∧
       ∀ j, ¬(i = I.arr ∧ I.off + I.len ≤ j ∧ j < I.off + I.cap) →
         (h.array i)[j]? = (A0.getD i [])[j]?))
    (ht : ((h.deref ret).Includes.arr = I.arr ∧ (h.deref ret).Includes.off = I.off ∧
        (h.deref ret).Includes.cap = I.cap ∧ I.len ≤ (h.deref ret).Includes.len) ∨
      A0.length ≤ (h.deref ret).Includes.arr) :
    ∀ k, k < A0.length →
      (((includeLoop grow ret refs n i h).array k).length = (A0.getD k []).length ∧
       ∀ j, ¬(k = I.arr ∧ I.off + I.len ≤ j ∧ j < I.off + I.cap) →
         ((includeLoop grow ret refs n i h).array k)[j]? = (A0.getD k [])[j]?) := by
  have key := includeLoop_induct grow ret refs (fun x =>
    ret < x.objs.length ∧ A0.length ≤ x.arrays.length ∧
    (∀ k, k < A0.length →
      ((x.array k).length = (A0.getD k []).length ∧
       ∀ j, ¬(k = I.arr ∧ I.off + I.len ≤ j ∧ j < I.off + I.cap) →
         (x.array k)[j]? = (A0.getD k [])[j]?)) ∧
    (((x.deref ret).Includes.arr = I.arr ∧ (x.deref ret).Includes.off = I.off ∧
        (x.deref ret).Includes.cap = I.cap ∧ I.len ≤ (x.deref ret).Includes.len) ∨
      A0.length ≤ (x.deref ret).Includes.arr))
    (fun x v ⟨p1, p2, p3, p4⟩ => includeStep_frame grow ret A0 I x v p1 p2 p3 p4)
    n i h ⟨hr, hlen, hag, ht⟩
  exact key.2.2.1

theorem elems_agree (A0 : List (List GoString)) (I : Slice) (h : Heap)
    (hag : ∀ i, i < A0.length →
      ((h.array i).length = (A0.getD i []).length ∧
       ∀ j, ¬(i = I.arr ∧ I.off + I.len ≤ j ∧ j < I.off + I.cap) →
         (h.array i)[j]? = (A0.getD i [])[j]?))
    (S : Slice) (hS : S.len = 0 ∨ S.arr < A0.length)
    (hdis : ∀ k, k < S.len → ¬(S.arr = I.arr ∧ I.off + I.len ≤ S.off + k ∧
      S.off + k < I.off + I.cap)) :
    h.elems S = ((A0.getD S.arr []).drop S.off).take S.len := by
  rcases hS with hS | hS
  · simp [Heap.elems, hS]
  · obtain ⟨g1, g2⟩ := hag S.arr hS
    unfold Heap.elems
    apply List.ext_getElem?
    intro k
    simp only [List.getElem?_take, List.getElem?_drop]
    split
    · rename_i hk
      exact g2 _ (hdis k hk)
    · rfl

theorem spareApart_cell (I refs : Slice) (hap : spareApart I refs) (k : Nat)
    (hk : k < refs.len) :
    ¬(refs.arr = I.arr ∧ I.off + I.len ≤ refs.off + k ∧ refs.off + k < I.off + I.cap) := by
  intro ⟨c1, c2, c3⟩
  rcases hap with d | d | d | d | d
  · exact d c1.symm
  · omega
  · omega
  · omega
  · omega

/-! ## The loop over refs that no append overwrites -/

theorem includeFold_spec (grow : Nat → Nat → Nat) (ret : Addr) (refs : List GoString) :
    ∀ (h : Heap), ret < h.objs.length → h.sliceOK (h.deref ret).Includes →
    (refs.foldl (includeStep grow ret) h).objs.length = h.objs.length ∧
    (refs.foldl (includeStep grow ret) h).sliceOK
      ((refs.foldl (includeStep grow ret) h).deref ret).Includes ∧
    (refs.foldl (includeStep grow ret) h).elems
      ((refs.foldl (includeStep grow ret) h).deref ret).Includes =
      includesSpec (h.elems (h.deref ret).Includes) refs ∧
    ((refs.foldl (includeStep grow ret) h).deref ret).others = (h.deref ret).others ∧
    ∀ a, a ≠ ret → (refs.foldl (includeStep grow ret) h).deref a = h.deref a := by
  induction refs with
  | nil => intro h hr ok; simp [includesSpec, ok]
  | cons v refs ih =>
    intro h hr ok
    obtain ⟨s1, s2, s3, s4, s5⟩ := includeStep_spec grow ret h v hr ok
    obtain ⟨t1, t2, t3, t4, t5⟩ := ih (includeStep grow ret h v) (by rw [s1]; exact hr) s2
    simp only [List.foldl_cons]
    refine ⟨t1.trans s1, t2, ?_, t4.trans s4, fun a ha => (t5 a ha).trans (s5 a ha)⟩
    rw [t3, s3]
    simp [includesSpec]

theorem take_drop_succ {α : Type} (l : List α) (i n : Nat) (d : α) (hi : i < l.length) :
    (l.drop i).take (n + 1) = l.getD i d :: (l.drop (i + 1)).take n := by
  rw [List.drop_eq_getElem_cons hi, List.take_succ_cons, List.getD_eq_getElem?_getD,
    List.getElem?_eq_getElem hi]
  rfl

/-- When no element of `refs` lies in the spare capacity of the slice `I`
that `ret.Includes` started from, the loop reads the values `refs` held
before it. -/
theorem includeLoop_fold (grow : Nat → Nat → Nat) (ret : Addr) (A0 : List (List GoString))
    (I refs : Slice) (hra : refs.arr < A0.length) (hap : spareApart I refs)
    (hin : refs.off + refs.len ≤ (A0.getD refs.arr []).length) :
    ∀ (n i : Nat) (h : Heap), ret < h.objs.length → A0.length ≤ h.arrays.length →
    (∀ i, i < A0.length →
      ((h.array i).length = (A0.getD i []).length ∧
       ∀ j, ¬(i = I.arr ∧ I.off + I.len ≤ j ∧ j < I.off + I.cap) →
         (h.array i)[j]? = (A0.getD i [])[j]?)) →
    (((h.deref ret).Includes.arr = I.arr ∧ (h.deref ret).Includes.off = I.off ∧
        (h.deref ret).Includes.cap = I.cap ∧ I.len ≤ (h.deref ret).Includes.len) ∨
      A0.length ≤ (h.deref ret).Includes.arr) →
    i + n ≤ refs.len →
    includeLoop grow ret refs n i h =
      (((((A0.getD refs.arr []).drop refs.off).take refs.len).drop i).take n).foldl
        (includeStep grow ret) h := by
  intro n
  induction n with
  | zero => intro i h _ _ _ _ _; simp [includeLoop]
  | succ n ih =>
    intro i h hr hlen hag ht hi
    obtain ⟨s1, s2, s3, s4⟩ := includeStep_frame grow ret A0 I h (h.read refs i) hr hlen hag ht
    have hlenv : (((A0.getD refs.arr []).drop refs.off).take refs.len).length = refs.len := by
      rw [List.length_take, List.length_drop]; omega
    have hv : h.read refs i =
        (((A0.getD refs.arr []).drop refs.off).take refs.len).getD i [] := by
      have e := (hag refs.arr hra).2 (refs.off + i) (spareApart_cell I refs hap i (by omega))
      simp only [Heap.read, List.getD_eq_getElem?_getD, List.getElem?_take, List.getElem?_drop]
      rw [e, if_pos (by omega)]
      simp only [List.getD_eq_getElem?_getD]
    simp only [includeLoop]
    rw [ih (i + 1) _ s1 s2 s3 s4 (by omega), take_drop_succ _ i n [] (by omega),
      List.foldl_cons, hv]

/-! ## The reference definition -/

theorem includesSpec_sub (refs : List GoString) :
    ∀ (l : List GoString) (v : GoString), v ∈ l → v ∈ includesSpec l refs := by
  induction refs with
  | nil => intro l v hv; simpa [includesSpec] using hv
  | cons r refs ih =>
    intro l v hv
    simp only [includesSpec, List.foldl_cons]
    apply ih
    split
    · exact hv
    · simp [hv]

theorem includesSpec_mem (refs : List GoString) :
    ∀ (l : List GoString) (v : GoString), v ∈ refs → v ∈ includesSpec l refs := by
  induction refs with
  | nil => intro l v hv; simp at hv
  | cons r refs ih =>
    intro l v hv
    simp only [includesSpec, List.foldl_cons]
    rcases List.mem_cons.1 hv with rfl | hv
    · apply includesSpec_sub
      split
      · assumption
      · simp
    · exact ih _ v hv

theorem includesSpec_noop (refs : List GoString) :
    ∀ (l : List GoString), (∀ v ∈ refs, v ∈ l) → includesSpec l refs = l := by
  induction refs with
  | nil => intro l _; rfl
  | cons r refs ih =>
    intro l hall
    simp only [includesSpec, List.foldl_cons, hall r (by simp), if_true]
    exact ih l (fun w hw => hall w (by simp [hw]))

theorem includesSpec_nodup (refs : List GoString) :
    ∀ (l : List GoString), l.Nodup → (includesSpec l refs).Nodup := by
  induction refs with
  | nil => intro l hl; simpa [includesSpec] using hl
  | cons r refs ih =>
    intro l hl
    simp only [includesSpec, List.foldl_cons]
    apply ih
    split
    · exact hl
    · rename_i hr
      rw [List.nodup_append]
      refine ⟨hl, by simp, ?_⟩
      intro a ha hb
      simp at hb
      subst hb
      exact hr ha

/-! ## Written-out arguments -/

/-- Allocating further backing arrays changes no slice that was well formed. -/
theorem Heap.extend (h k : Heap) (T : List (List GoString)) (e : k.arrays = h.arrays ++ T)
    (s : Slice) (ok : h.sliceOK s) : k.sliceOK s ∧ k.elems s = h.elems s := by
  obtain ⟨h1, h2⟩ := ok
  rcases h2 with h2 | ⟨h2, h3⟩
  · have h0 : s.len = 0 := by omega
    exact ⟨⟨h1, Or.inl h2⟩, by simp [Heap.elems, h0]⟩
  · have ea : k.array s.arr = h.array s.arr := by
      simp only [Heap.array, e, List.getD_eq_getElem?_getD]
      rw [List.getElem?_append_left h2]
    refine ⟨⟨h1, Or.inr ⟨by rw [e]; simp; omega, by rw [ea]; exact h3⟩⟩, ?_⟩
    simp only [Heap.elems, ea]

theorem variadic_arrays (h : Heap) (vs : List GoString) :
    ∃ T, (variadic h vs).1.arrays = h.arrays ++ T := by
  cases vs with
  | nil => exact ⟨[], by simp [variadic]⟩
  | cons v vs => exact ⟨[v :: vs], rfl⟩

theorem variadic_objs (h : Heap) (vs : List GoString) : (variadic h vs).1.objs = h.objs := by
  cases vs <;> rfl

theorem variadic_slice (h : Heap) (vs : List GoString) :
    (variadic h vs).1.sliceOK (variadic h vs).2 ∧
    (variadic h vs).1.elems (variadic h vs).2 = vs := by
  cases vs with
  | nil => exact ⟨⟨Nat.le_refl _, Or.inl rfl⟩, rfl⟩
  | cons v vs =>
    refine ⟨⟨Nat.le_refl _, Or.inr ⟨?_, ?_⟩⟩, ?_⟩
    · show h.arrays.length < (h.arrays ++ [v :: vs]).length
      simp
    · show 0 + (v :: vs).length ≤
        (Heap.array { h with arrays := h.arrays ++ [v :: vs] } h.arrays.length).length
      rw [Heap.array_push]; simp
    · show ((Heap.array { h with arrays := h.arrays ++ [v :: vs] } h.arrays.length).drop 0).take
        (v :: vs).length = v :: vs
      rw [Heap.array_push]; simp

theorem variadic_apart (h : Heap) (vs : List GoString) (s : Slice) (ok : h.sliceOK s) :
    spareApart s (variadic h vs).2 := by
  cases vs with
  | nil => right; right; left; rfl
  | cons v vs =>
    obtain ⟨h1, h2⟩ := ok
    rcases h2 with h2 | ⟨h2, _⟩
    · right; left; omega
    · left
      show s.arr ≠ h.arrays.length
      omega

theorem Heap.valueOf_sliceOK (h : Heap) (g : Ptr) (ok : h.ptrOK g) :
    h.sliceOK (h.valueOf g).Includes := by
  cases g with
  | none => exact ⟨Nat.le_refl _, Or.inl rfl⟩
  | some a => exact ok.2.1

theorem variadic_ptrOK (h : Heap) (vs : List GoString) (g : Ptr) (ok : h.ptrOK g) :
    (variadic h vs).1.ptrOK g ∧ (variadic h vs).1.valueOf g = h.valueOf g ∧
    (variadic h vs).1.elems (h.valueOf g).Includes = h.elems (h.valueOf g).Includes := by
  obtain ⟨T, eT⟩ := variadic_arrays h vs
  have eo := variadic_objs h vs
  have e3 := (Heap.extend h _ T eT _ (h.valueOf_sliceOK g ok)).2
  cases g with
  | none => exact ⟨trivial, rfl, e3⟩
  | some a =>
    obtain ⟨ha, okI, okE⟩ := ok
    have hd : (variadic h vs).1.deref a = h.deref a := Heap.deref_congr _ _ eo a
    obtain ⟨i1, _⟩ := Heap.extend h _ T eT _ okI
    obtain ⟨x1, _⟩ := Heap.extend h _ T eT _ okE
    exact ⟨⟨by rw [eo]; exact ha, by rw [hd]; exact i1, by rw [hd]; exact x1⟩, hd, e3⟩

/-! ## `CopyOrNew` and `Including` -/

theorem GetOptions.others_fields {a b : GetOptions} (e : a.others = b.others) :
    a.Excludes = b.Excludes ∧ a.Page = b.Page ∧ a.PerPage = b.PerPage ∧ a.Search = b.Search ∧
    a.SortBy = b.SortBy ∧ a.SortDirection = b.SortDirection ∧ a.Meta = b.Meta := by
  cases a; cases b
  simp only [GetOptions.others, GetOptions.mk.injEq] at e
  obtain ⟨_, e1, e2, e3, e4, e5, e6, e7⟩ := e
  exact ⟨e1, e2, e3, e4, e5, e6, e7⟩

theorem CopyOrNew_alloc (h : Heap) (g : Ptr) : CopyOrNew h g = h.alloc (h.valueOf g) := by
  cases g <;> rfl

/-- What `Including` does for every receiver and every slice of refs, shared
storage or not. -/
theorem Including_loop (grow : Nat → Nat → Nat) (h : Heap) (g : Ptr) (refs : Slice)
    (ok : h.ptrOK g) :
    (Including grow h g refs).2 = h.objs.length ∧
    (Including grow h g refs).1.objs.length = h.objs.length + 1 ∧
    (Including grow h g refs).1.sliceOK
      ((Including grow h g refs).1.deref (Including grow h g refs).2).Includes ∧
    h.elems (h.valueOf g).Includes <+:
      (Including grow h g refs).1.elems
        ((Including grow h g refs).1.deref (Including grow h g refs).2).Includes ∧
    ((h.elems (h.valueOf g).Includes).Nodup →
      ((Including grow h g refs).1.elems
        ((Including grow h g refs).1.deref (Including grow h g refs).2).Includes).Nodup) ∧
    ((Including grow h g refs).1.deref (Including grow h g refs).2).others =
      (h.valueOf g).others ∧
    (∀ a, a < h.objs.length → (Including grow h g refs).1.deref a = h.deref a) ∧
    h.arrays.length ≤ (Including grow h g refs).1.arrays.length := by
  have hlt : (h.alloc (h.valueOf g)).2 < (h.alloc (h.valueOf g)).1.objs.length := by
    simp [Heap.alloc]
  have hd0 := Heap.deref_alloc_self h (h.valueOf g)
  have hok : (h.alloc (h.valueOf g)).1.sliceOK
      ((h.alloc (h.valueOf g)).1.deref (h.alloc (h.valueOf g)).2).Includes := by
    rw [hd0]; exact h.valueOf_sliceOK g ok
  obtain ⟨t1, t2, t3, t4, t5, t6, t7⟩ :=
    includeLoop_spec grow (h.alloc (h.valueOf g)).2 refs (h.alloc (h.valueOf g)).1 hlt hok
      refs.len 0
  rw [hd0] at t3 t4 t5
  simp only [Including, CopyOrNew_alloc]
  refine ⟨rfl, by rw [t1]; simp [Heap.alloc], t2, t3, t4, t5, ?_, t7⟩
  intro a ha
  rw [t6 a (Nat.ne_of_lt ha)]
  exact Heap.deref_alloc_other h _ a ha

/-- After `Including` every element of `refs`, as its backing array holds it
then, is among the `Includes` of the result. -/
theorem Including_present (grow : Nat → Nat → Nat) (h : Heap) (g : Ptr) (refs : Slice)
    (ok : h.ptrOK g) (okr : h.sliceOK refs) :
    ∀ j, j < refs.len →
      (Including grow h g refs).1.read refs j ∈
        (Including grow h g refs).1.elems
          ((Including grow h g refs).1.deref (Including grow h g refs).2).Includes := by
  intro j hj
  have hra : refs.arr < h.arrays.length := by
    obtain ⟨o1, o2⟩ := okr
    rcases o2 with o2 | ⟨o2, _⟩
    · omega
    · exact o2
  have hlt : (h.alloc (h.valueOf g)).2 < (h.alloc (h.valueOf g)).1.objs.length := by
    simp [Heap.alloc]
  have hok : (h.alloc (h.valueOf g)).1.sliceOK
      ((h.alloc (h.valueOf g)).1.deref (h.alloc (h.valueOf g)).2).Includes := by
    rw [Heap.deref_alloc_self]; exact h.valueOf_sliceOK g ok
  simp only [Including, CopyOrNew_alloc]
  exact includeLoop_present grow (h.alloc (h.valueOf g)).2 refs refs.len 0
    (h.alloc (h.valueOf g)).1 hlt hok hra (fun k hk => absurd hk (Nat.not_lt_zero k)) j
    (by omega)

/-- When every element of `refs` is among the receiver's `Includes`,
`Including` returns the copy as `CopyOrNew` made it. -/
theorem Including_noop (grow : Nat → Nat → Nat) (h : Heap) (g : Ptr) (refs : Slice)
    (hall : ∀ j, j < refs.len → h.read refs j ∈ h.elems (h.valueOf g).Includes) :
    Including grow h g refs = CopyOrNew h g := by
  have hno := includeLoop_noop grow (h.alloc (h.valueOf g)).2 refs refs.len 0
    (h.alloc (h.valueOf g)).1 (fun j _ hj => by
      rw [Heap.deref_alloc_self]
      exact hall j (by omega))
  simp only [Including, CopyOrNew_alloc]
  rw [hno]

/-- When no element of `refs` lies in the spare capacity of the receiver's
`Includes`, `Including` runs its loop over the values `refs` held at the
call. -/
theorem Including_apart (grow : Nat → Nat → Nat) (h : Heap) (g : Ptr) (refs : Slice)
    (okr : h.sliceOK refs) (hap : spareApart (h.valueOf g).Includes refs) :
    Including grow h g refs =
      ((h.elems refs).foldl (includeStep grow (CopyOrNew h g).2) (CopyOrNew h g).1,
       (CopyOrNew h g).2) := by
  have hlt : (h.alloc (h.valueOf g)).2 < (h.alloc (h.valueOf g)).1.objs.length := by
    simp [Heap.alloc]
  simp only [Including, CopyOrNew_alloc]
  by_cases h0 : refs.len = 0
  · simp [h0, includeLoop, Heap.elems]
  · obtain ⟨o1, o2⟩ := okr
    rcases o2 with o2 | ⟨o2, o3⟩
    · omega
    · have key := includeLoop_fold grow (h.alloc (h.valueOf g)).2 h.arrays (h.valueOf g).Includes
        refs o2 hap (by have : h.array refs.arr = h.arrays.getD refs.arr [] := rfl
                        rw [← this]; omega)
        refs.len 0 (h.alloc (h.valueOf g)).1 hlt (Nat.le_refl _)
        (fun i _ => ⟨rfl, fun _ _ => rfl⟩)
        (by rw [Heap.deref_alloc_self]; exact Or.inl ⟨rfl, rfl, rfl, Nat.le_refl _⟩)
        (by omega)
      rw [key]
      simp [Heap.elems, Heap.array, List.take_take]

/-- When no element of `refs` lies in the spare capacity of the receiver's
`Includes`, the `Includes` of the result are the fold of the specification
over the receiver's elements and the refs, and every other field is the
receiver's. -/
theorem Including_apart_spec (grow : Nat → Nat → Nat) (h : Heap) (g : Ptr) (refs : Slice)
    (ok : h.ptrOK g) (okr : h.sliceOK refs) (hap : spareApart (h.valueOf g).Includes refs) :
    (Including grow h g refs).1.elems
      ((Including grow h g refs).1.deref (Including grow h g refs).2).Includes =
      includesSpec (h.elems (h.valueOf g).Includes) (h.elems refs) ∧
    ((Including grow h g refs).1.deref (Including grow h g refs).2).others =
      (h.valueOf g).others := by
  refine ⟨?_, (Including_loop grow h g refs ok).2.2.2.2.2.1⟩
  have hlt : (h.alloc (h.valueOf g)).2 < (h.alloc (h.valueOf g)).1.objs.length := by
    simp [Heap.alloc]
  have hok : (h.alloc (h.valueOf g)).1.sliceOK
      ((h.alloc (h.valueOf g)).1.deref (h.alloc (h.valueOf g)).2).Includes := by
    rw [Heap.deref_alloc_self]; exact h.valueOf_sliceOK g ok
  obtain ⟨_, _, t3, _, _⟩ := includeFold_spec grow (h.alloc (h.valueOf g)).2 (h.elems refs)
    (h.alloc (h.valueOf g)).1 hlt hok
  rw [Heap.deref_alloc_self] at t3
  rw [Including_apart grow h g refs okr hap]
  simp only [CopyOrNew_alloc]
  exact t3

/-- The call `g.Including(v1, ..., vn)` with the refs written out: the
`Includes` of the result are the fold of the specification over the
receiver's elements and the refs. -/
theorem IncludingArgs_loop (grow : Nat → Nat → Nat) (h : Heap) (g : Ptr) (vs : List GoString)
    (ok : h.ptrOK g) :
    (IncludingArgs grow h g vs).2 = h.objs.length ∧
    (IncludingArgs grow h g vs).1.objs.length = h.objs.length + 1 ∧
    (IncludingArgs grow h g vs).1.sliceOK
      ((IncludingArgs grow h g vs).1.deref (IncludingArgs grow h g vs).2).Includes ∧
    (IncludingArgs grow h g vs).1.elems
      ((IncludingArgs grow h g vs).1.deref (IncludingArgs grow h g vs).2).Includes =
      includesSpec (h.elems (h.valueOf g).Includes) vs ∧
    ((IncludingArgs grow h g vs).1.deref (IncludingArgs grow h g vs).2).others =
      (h.valueOf g).others := by
  obtain ⟨v1, v2, v3⟩ := variadic_ptrOK h vs g ok
  obtain ⟨w1, w2⟩ := variadic_slice h vs
  have hap : spareApart ((variadic h vs).1.valueOf g).Includes (variadic h vs).2 := by
    rw [v2]; exact variadic_apart h vs _ (h.valueOf_sliceOK g ok)
  obtain ⟨k1, k2, k3, _, _, k6, _⟩ := Including_loop grow (variadic h vs).1 g (variadic h vs).2 v1
  obtain ⟨a1, _⟩ := Including_apart_spec grow (variadic h vs).1 g (variadic h vs).2 v1 w1 hap
  rw [v2, v3, w2] at a1
  rw [variadic_objs] at k1 k2
  rw [v2] at k6
  exact ⟨k1, k2, k3, a1, k6⟩

/-- Apart from the elements that lie in the spare capacity of the receiver's
`Includes`, `Including` changes nothing the receiver can read: its fields and
the elements of its `Includes` are as before, and so are the elements of its
`Excludes` unless they share that spare capacity. -/
theorem Including_receiver_frame (grow : Nat → Nat → Nat) (h : Heap) (a : Addr)
    (refs : Slice) (ok : h.ptrOK (some a)) :
    (Including grow h (some a) refs).1.deref a = h.deref a ∧
    (Including grow h (some a) refs).1.elems (h.deref a).Includes =
      h.elems (h.deref a).Includes ∧
    (((h.deref a).Excludes.arr ≠ (h.deref a).Includes.arr ∨
      (h.deref a).Excludes.off + (h.deref a).Excludes.len ≤
        (h.deref a).Includes.off + (h.deref a).Includes.len ∨
      (h.deref a).Includes.off + (h.deref a).Includes.cap ≤ (h.deref a).Excludes.off) →
      (Including grow h (some a) refs).1.elems (h.deref a).Excludes =
        h.elems (h.deref a).Excludes) := by
  obtain ⟨_, _, _, _, _, _, k7, _⟩ := Including_loop grow h (some a) refs ok
  obtain ⟨ha, okI, okE⟩ := ok
  have hlt : (h.alloc (h.deref a)).2 < (h.alloc (h.deref a)).1.objs.length := by
    simp [Heap.alloc]
  have hd0 : (h.alloc (h.deref a)).1.deref (h.alloc (h.deref a)).2 = h.deref a :=
    Heap.deref_alloc_self _ _
  have hag := includeLoop_frame grow (h.alloc (h.deref a)).2 h.arrays (h.deref a).Includes
    refs refs.len 0 (h.alloc (h.deref a)).1 hlt (Nat.le_refl _)
    (fun i _ => ⟨rfl, fun _ _ => rfl⟩)
    (by rw [hd0]; exact Or.inl ⟨rfl, rfl, rfl, Nat.le_refl _⟩)
  have hsl : ∀ S : Slice, h.sliceOK S → S.len = 0 ∨ S.arr < h.arrays.length := by
    intro S hS
    rcases hS.2 with c | c
    · left; have := hS.1; omega
    · right; exact c.1
  refine ⟨k7 a ha, ?_, ?_⟩
  · exact elems_agree h.arrays (h.deref a).Includes _ hag (h.deref a).Includes (hsl _ okI)
      (fun k hk hc => by omega)
  · intro hdis
    exact elems_agree h.arrays (h.deref a).Includes _ hag (h.deref a).Excludes (hsl _ okE)
      (fun k hk hc => by
        obtain ⟨c1, c2, c3⟩ := hc
        rcases hdis with d | d | d
        · exact d c1
        · omega
        · omega)

/-- C1 (evaluation at the inputs that break it): after
`arr := []string{"p","q"}; g := &GetOptions{Includes: arr[1:1]}` the call
`g.Including(arr...)` appends `"p"` in place, over `arr[1]`, before the loop
reads `arr[1]`: the result's `Includes` are `["p"]`, where the fold of the
claim gives `["p","q"]`.  After `all := []string{"a","b","c"};
g := &GetOptions{Includes: all[1:2]}` the call `g.Including(all...)` gives
`["b","a"]`, where the fold gives `["b","a","c"]`.  And after
`s := []string{"a","b","c"}; g := &GetOptions{Includes: s[:1], Excludes: s}`
the result of `g.Including("x")` has the `Excludes` header of `g`, which read
`["a","b","c"]` before the call and reads `["a","x","c"]` in the result. -/
theorem Including_reads_overwritten_refs :
    (heapAlias.ptrOK (some 0) ∧ heapAlias.sliceOK refsAlias ∧
      heapAlias.elems (heapAlias.deref 0).Includes = [] ∧
      heapAlias.elems refsAlias = [str "p", str "q"] ∧
      includesSpec (heapAlias.elems (heapAlias.deref 0).Includes) (heapAlias.elems refsAlias) =
        [str "p", str "q"] ∧
      (Including doubling heapAlias (some 0) refsAlias).1.elems
        ((Including doubling heapAlias (some 0) refsAlias).1.deref
          (Including doubling heapAlias (some 0) refsAlias).2).Includes = [str "p"]) ∧
    (heapWindow.ptrOK (some 0) ∧ heapWindow.sliceOK refsWindow ∧
      includesSpec (heapWindow.elems (heapWindow.deref 0).Includes)
        (heapWindow.elems refsWindow) = [str "b", str "a", str "c"] ∧
      (Including doubling heapWindow (some 0) refsWindow).1.elems
        ((Including doubling heapWindow (some 0) refsWindow).1.deref
          (Including doubling heapWindow (some 0) refsWindow).2).Includes =
        [str "b", str "a"]) ∧
    (heapOverlap.elems (heapOverlap.valueOf (some 0)).Excludes = [str "a", str "b", str "c"] ∧
      ((IncludingArgs doubling heapOverlap (some 0) [str "x"]).1.deref
        (IncludingArgs doubling heapOverlap (some 0) [str "x"]).2).Excludes =
        (heapOverlap.valueOf (some 0)).Excludes ∧
      (IncludingArgs doubling heapOverlap (some 0) [str "x"]).1.elems
        ((IncludingArgs doubling heapOverlap (some 0) [str "x"]).1.deref
          (IncludingArgs doubling heapOverlap (some 0) [str "x"]).2).Excludes =
        [str "a", str "x", str "c"]) := by
  decide

/-- C2: `Including` is idempotent, for every receiver (nil included): a second
call with the same refs on the result of the first returns options with the
same `Includes` content, and every field (the `Includes` header too) equal to
the first result's.  This holds for a slice of refs passed twice
(`g.Including(s...).Including(s...)`, whatever storage `s` shares with `g`)
and for refs written out twice (`g.Including(v1, ..., vn)` on both calls). -/
theorem Including_idempotent (grow : Nat → Nat → Nat) (h : Heap) (g : Ptr) (ok : h.ptrOK g) :
    (∀ (refs : Slice) (h1 h2 : Heap) (r1 r2 : Addr), h.sliceOK refs →
      Including grow h g refs = (h1, r1) →
      Including grow h1 (some r1) refs = (h2, r2) →
      h2.elems (h2.deref r2).Includes = h1.elems (h1.deref r1).Includes ∧
      h2.deref r2 = h1.deref r1) ∧
    (∀ (vs : List GoString) (h1 h2 : Heap) (r1 r2 : Addr),
      IncludingArgs grow h g vs = (h1, r1) →
      IncludingArgs grow h1 (some r1) vs = (h2, r2) →
      h2.elems (h2.deref r2).Includes = h1.elems (h1.deref r1).Includes ∧
      h2.deref r2 = h1.deref r1) := by
  refine ⟨?_, ?_⟩
  · intro refs h1 h2 r1 r2 okr e1 e2
    have hp := Including_present grow h g refs ok okr
    rw [e1] at hp
    have e3 := Including_noop grow h1 (some r1) refs hp
    rw [e3] at e2
    obtain ⟨rfl, rfl⟩ := Prod.mk.inj e2
    show (h1.alloc (h1.deref r1)).1.elems
      ((h1.alloc (h1.deref r1)).1.deref (h1.alloc (h1.deref r1)).2).Includes = _ ∧
      (h1.alloc (h1.deref r1)).1.deref (h1.alloc (h1.deref r1)).2 = _
    rw [Heap.deref_alloc_self]
    exact ⟨rfl, rfl⟩
  · intro vs h1 h2 r1 r2 e1 e2
    obtain ⟨_, _, k3, k4, _⟩ := IncludingArgs_loop grow h g vs ok
    rw [e1] at k3 k4
    simp only at k3 k4
    obtain ⟨T, eT⟩ := variadic_arrays h1 vs
    obtain ⟨w1, w2⟩ := variadic_slice h1 vs
    have hd : (variadic h1 vs).1.deref r1 = h1.deref r1 :=
      Heap.deref_congr _ _ (variadic_objs h1 vs) r1
    have he := (Heap.extend h1 _ T eT _ k3).2
    have hall : ∀ j, j < (variadic h1 vs).2.len →
        (variadic h1 vs).1.read (variadic h1 vs).2 j ∈
          (variadic h1 vs).1.elems ((variadic h1 vs).1.valueOf (some r1)).Includes := by
      intro j hj
      have hm := (variadic h1 vs).1.read_mem_elems (variadic h1 vs).2 w1 j hj
      rw [w2] at hm
      show _ ∈ (variadic h1 vs).1.elems ((variadic h1 vs).1.deref r1).Includes
      rw [hd, he, k4]
      exact includesSpec_mem vs _ _ hm
    have e3 := Including_noop grow (variadic h1 vs).1 (some r1) (variadic h1 vs).2 hall
    unfold IncludingArgs at e2
    rw [e3] at e2
    obtain ⟨rfl, rfl⟩ := Prod.mk.inj e2
    show ((variadic h1 vs).1.alloc ((variadic h1 vs).1.deref r1)).1.elems
      (((variadic h1 vs).1.alloc ((variadic h1 vs).1.deref r1)).1.deref
        ((variadic h1 vs).1.alloc ((variadic h1 vs).1.deref r1)).2).Includes = _ ∧
      ((variadic h1 vs).1.alloc ((variadic h1 vs).1.deref r1)).1.deref
        ((variadic h1 vs).1.alloc ((variadic h1 vs).1.deref r1)).2 = _
    rw [Heap.deref_alloc_self, hd]
    exact ⟨he, rfl⟩

theorem Including_idempotent_witness :
    heapPlain.ptrOK (some 0) ∧
    (IncludingArgs doubling (IncludingArgs doubling heapPlain (some 0) [str "b", str "c"]).1
        (some (IncludingArgs doubling heapPlain (some 0) [str "b", str "c"]).2)
        [str "b", str "c"]).1.elems
      ((IncludingArgs doubling (IncludingArgs doubling heapPlain (some 0) [str "b", str "c"]).1
        (some (IncludingArgs doubling heapPlain (some 0) [str "b", str "c"]).2)
        [str "b", str "c"]).1.deref 2).Includes = [str "a", str "b", str "c"] ∧
    (Including doubling (Including doubling heapWindow (some 0) refsWindow).1 (some 1)
        refsWindow).1.elems
      ((Including doubling (Including doubling heapWindow (some 0) refsWindow).1 (some 1)
        refsWindow).1.deref 2).Includes = [str "b", str "a"] :=
  ⟨by decide,
   ((Including_idempotent doubling heapPlain (some 0) (by decide)).2 [str "b", str "c"]
      (IncludingArgs doubling heapPlain (some 0) [str "b", str "c"]).1
      (IncludingArgs doubling (IncludingArgs doubling heapPlain (some 0) [str "b", str "c"]).1
        (some (IncludingArgs doubling heapPlain (some 0) [str "b", str "c"]).2)
        [str "b", str "c"]).1
      1 2 (by decide) (by decide)).1.trans (by decide),
   ((Including_idempotent doubling heapWindow (some 0) (by decide)).1 refsWindow
      (Including doubling heapWindow (some 0) refsWindow).1
      (Including doubling (Including doubling heapWindow (some 0) refsWindow).1 (some 1)
        refsWindow).1
      1 2 (by decide) (by decide) (by decide)).1.trans (by decide)⟩

/-- C3: `Including` keeps `Includes` free of duplicates, for every receiver
(nil included): if the receiver's `Includes` have none, neither have the
result's, whatever refs repeat; and when every ref is already among the
receiver's `Includes`, the result's `Includes` are the receiver's.  This holds
for refs passed as a slice (whatever storage it shares with the receiver) and
for refs written out. -/
theorem Including_nodup (grow : Nat → Nat → Nat) (h : Heap) (g : Ptr) (ok : h.ptrOK g) :
    (∀ refs : Slice, h.sliceOK refs →
      ((h.elems (h.valueOf g).Includes).Nodup →
        ((Including grow h g refs).1.elems
          ((Including grow h g refs).1.deref (Including grow h g refs).2).Includes).Nodup) ∧
      ((∀ v ∈ h.elems refs, v ∈ h.elems (h.valueOf g).Includes) →
        (Including grow h g refs).1.elems
          ((Including grow h g refs).1.deref (Including grow h g refs).2).Includes =
          h.elems (h.valueOf g).Includes)) ∧
    (∀ vs : List GoString,
      ((h.elems (h.valueOf g).Includes).Nodup →
        ((IncludingArgs grow h g vs).1.elems
          ((IncludingArgs grow h g vs).1.deref (IncludingArgs grow h g vs).2).Includes).Nodup) ∧
      ((∀ v ∈ vs, v ∈ h.elems (h.valueOf g).Includes) →
        (IncludingArgs grow h g vs).1.elems
          ((IncludingArgs grow h g vs).1.deref (IncludingArgs grow h g vs).2).Includes =
          h.elems (h.valueOf g).Includes)) := by
  refine ⟨?_, ?_⟩
  · intro refs okr
    refine ⟨(Including_loop grow h g refs ok).2.2.2.2.1, ?_⟩
    intro hall
    rw [Including_noop grow h g refs (fun j hj => hall _ (h.read_mem_elems refs okr j hj)),
      CopyOrNew_alloc, Heap.deref_alloc_self]
    rfl
  · intro vs
    obtain ⟨_, _, _, k4, _⟩ := IncludingArgs_loop grow h g vs ok
    rw [k4]
    exact ⟨includesSpec_nodup vs _, includesSpec_noop vs _⟩

theorem Including_nodup_witness :
    ((IncludingArgs doubling heapPlain (some 0) [str "c", str "a", str "c"]).1.elems
      ((IncludingArgs doubling heapPlain (some 0) [str "c", str "a", str "c"]).1.deref
        (IncludingArgs doubling heapPlain (some 0) [str "c", str "a", str "c"]).2).Includes).Nodup ∧
    (IncludingArgs doubling heapPlain (some 0) [str "b", str "a", str "b"]).1.elems
      ((IncludingArgs doubling heapPlain (some 0) [str "b", str "a", str "b"]).1.deref
        (IncludingArgs doubling heapPlain (some 0) [str "b", str "a", str "b"]).2).Includes =
      heapPlain.elems (heapPlain.valueOf (some 0)).Includes ∧
    ((Including doubling heapWindow (some 0) refsWindow).1.elems
      ((Including doubling heapWindow (some 0) refsWindow).1.deref
        (Including doubling heapWindow (some 0) refsWindow).2).Includes).Nodup :=
  ⟨((Including_nodup doubling heapPlain (some 0) (by decide)).2
      [str "c", str "a", str "c"]).1 (by decide),
   ((Including_nodup doubling heapPlain (some 0) (by decide)).2
      [str "b", str "a", str "b"]).2 (by decide),
   ((Including_nodup doubling heapWindow (some 0) (by decide)).1 refsWindow (by decide)).1
      (by decide)⟩

/-- C6: `CopyOrNew` always returns the address of a newly allocated object
(it cannot fail): the object holds the zero `GetOptions` for the nil receiver
and a field-by-field copy of `*g` otherwise; no other object and no backing
array changes. -/
theorem CopyOrNew_spec (h : Heap) (g : Ptr) :
    (CopyOrNew h g).2 = h.objs.length ∧
    (CopyOrNew h g).1.objs = h.objs ++ [h.valueOf g] ∧
    (CopyOrNew h g).1.arrays = h.arrays ∧
    (CopyOrNew h g).1.deref (CopyOrNew h g).2 = h.valueOf g ∧
    h.valueOf none = { Includes := {}, Excludes := {}, Page := 0, PerPage := 0, Search := [],
                       SortBy := [], SortDirection := [], Meta := {} } ∧
    (∀ a, h.valueOf (some a) = h.deref a) := by
  cases g with
  | none => exact ⟨rfl, rfl, rfl, Heap.deref_alloc_self _ _, rfl, fun _ => rfl⟩
  | some a => exact ⟨rfl, rfl, rfl, Heap.deref_alloc_self _ _, rfl, fun _ => rfl⟩

/-- C4 (evaluation at the input that breaks it): after
`s := []string{"a","b","c"}; g := &GetOptions{Includes: s[:1], Excludes: s}`,
the call `g.Including("x")` appends in place, into the backing array that
`g.Excludes` shares, and `g.Excludes` reads `["a","x","c"]` afterwards. -/
theorem Including_overwrites_receiver :
    heapOverlap.ptrOK (some 0) ∧
    heapOverlap.elems (heapOverlap.deref 0).Excludes = [str "a", str "b", str "c"] ∧
    (IncludingArgs doubling heapOverlap (some 0) [str "x"]).1.elems
      ((IncludingArgs doubling heapOverlap (some 0) [str "x"]).1.deref 0).Excludes =
      [str "a", str "x", str "c"] := by
  decide

/-- C5 (evaluation at the inputs that break it): the copy made by `CopyOrNew`
has the same slice header as the original, so (1) overwriting element 0 of the
copy's `Includes` overwrites element 0 of the original's, and (2) with
`o := nil.Including("a","b","c")` (length 3, capacity 4 after the appends),
`x := o.Including("x")` followed by `y := o.Including("y")` leaves `x.Includes`
reading `["a","b","c","y"]`. -/
theorem CopyOrNew_shares_storage :
    ((CopyOrNew heapSingle (some 0)).1.deref (CopyOrNew heapSingle (some 0)).2).Includes =
      (heapSingle.deref 0).Includes ∧
    (((CopyOrNew heapSingle (some 0)).1.setIndex
        ((CopyOrNew heapSingle (some 0)).1.deref (CopyOrNew heapSingle (some 0)).2).Includes
        0 (str "q")).elems (heapSingle.deref 0).Includes = [str "q"]) ∧
    (IncludingArgs doubling {} none [str "a", str "b", str "c"]).2 = 0 ∧
    (IncludingArgs doubling (IncludingArgs doubling {} none [str "a", str "b", str "c"]).1
      (some 0) [str "x"]).2 = 1 ∧
    (IncludingArgs doubling (IncludingArgs doubling {} none [str "a", str "b", str "c"]).1
      (some 0) [str "x"]).1.elems
      ((IncludingArgs doubling (IncludingArgs doubling {} none [str "a", str "b", str "c"]).1
        (some 0) [str "x"]).1.deref 1).Includes = [str "a", str "b", str "c", str "x"] ∧
    (IncludingArgs doubling
      (IncludingArgs doubling (IncludingArgs doubling {} none [str "a", str "b", str "c"]).1
        (some 0) [str "x"]).1 (some 0) [str "y"]).1.elems
      ((IncludingArgs doubling
        (IncludingArgs doubling (IncludingArgs doubling {} none [str "a", str "b", str "c"]).1
          (some 0) [str "x"]).1 (some 0) [str "y"]).1.deref 1).Includes =
      [str "a", str "b", str "c", str "y"] := by
  decide

/-! ## `nextPage` -/

theorem advance_spec (h : Heap) (m : meta) (opts : Ptr) :
    (advance h m opts).2 = h.objs.length ∧
    (advance h m opts).1.deref (advance h m opts).2 =
      { h.valueOf opts with Page := wrapInt (m.CurrentPageNum + 1) } ∧
    (advance h m opts).1.arrays = h.arrays ∧
    (advance h m opts).1.objs =
      h.objs ++ [{ h.valueOf opts with Page := wrapInt (m.CurrentPageNum + 1) }] := by
  have hobjs : (advance h m opts).1.objs =
      h.objs ++ [{ h.valueOf opts with Page := wrapInt (m.CurrentPageNum + 1) }] := by
    cases opts <;>
      simp [advance, CopyOrNew, Heap.alloc, Heap.store, Heap.deref, Heap.valueOf,
        List.getD_eq_getElem?_getD]
  have h2 : (advance h m opts).2 = h.objs.length := by cases opts <;> rfl
  refine ⟨h2, ?_, by cases opts <;> rfl, hobjs⟩
  rw [h2]
  unfold Heap.deref
  rw [hobjs]
  simp [List.getD_eq_getElem?_getD]

theorem nextPage_advance_aux (h : Heap) (m : meta) (opts : Ptr) (next : Href)
    (hn : m.Next = some next) (hp : GetPage h opts = 0) :
    ∃ (h1 : Heap) (c : Addr),
      nextPage h m opts =
        (match stripQuery next.Href with
         | .error e => .error e
         | .ok p => .ok (WithQuery h1 (some c) p, h1)) ∧
      (∀ u, Parse next.Href = some u →
        nextPage h m opts =
          .ok (WithQuery h1 (some c) (URL.String { u with RawQuery := [] }), h1)) ∧
      c = h.objs.length ∧
      h1.objs = h.objs ++ [{ h.valueOf opts with Page := wrapInt (m.CurrentPageNum + 1) }] ∧
      h1.arrays = h.arrays ∧
      h1.deref c = { h.valueOf opts with Page := wrapInt (m.CurrentPageNum + 1) } ∧
      Encode h1 (some c) =
        Values.Encode (reflectValue (h.elems (h.valueOf opts).Includes)
          (h.elems (h.valueOf opts).Excludes)
          { h.valueOf opts with Page := wrapInt (m.CurrentPageNum + 1) }) := by
  obtain ⟨a1, a2, a3, a4⟩ := advance_spec h m opts
  have hnp : nextPage h m opts =
      (match stripQuery next.Href with
       | .error e => .error e
       | .ok p => .ok (WithQuery (advance h m opts).1 (some (advance h m opts).2) p,
                       (advance h m opts).1)) := by
    simp [nextPage, hn, hp]
  refine ⟨(advance h m opts).1, (advance h m opts).2, hnp, ?_, a1, a4, a3, a2, ?_⟩
  · intro u hu
    rw [hnp]
    simp [stripQuery, hu]
  · simp only [Encode, queryValues]
    rw [a2]
    simp only [Heap.elems, Heap.array, a3]

/-- C7 (evaluation at the input that breaks it): with the next link
`/batches%zz?page=2`, which `url.Parse` rejects (invalid URL escape), and the
unpinned options `{Includes: ["a","b"], Excludes: ["z"], PerPage: 10}`,
`stripQuery` panics on the nil `*URL` and `nextPage` with it: no path is
returned.  The same happens with nil options. -/
theorem nextPage_advance_panics :
    Parse (str "/batches%zz?page=2") = none ∧
    stripQuery (str "/batches%zz?page=2") = .error .nilPointerDereference ∧
    heapPlain.ptrOK (some 0) ∧ GetPage heapPlain (some 0) = 0 ∧
    nextPage heapPlain { Next := some ⟨str "/batches%zz?page=2"⟩, CurrentPageNum := 1 }
      (some 0) = .error .nilPointerDereference ∧
    nextPage {} { Next := some ⟨str "/batches%zz?page=2"⟩, CurrentPageNum := 1 } none =
      .error .nilPointerDereference := by
  decide

theorem nextPage_else (h : Heap) (m : meta) (opts : Ptr) :
    (m.Next = none ∨ GetPage h opts ≠ 0) →
    nextPage h m opts =
      (match opts with
       | some a => .ok ([], h.store a { h.deref a with Meta := m })
       | none => .ok ([], h)) := by
  intro hc
  unfold nextPage
  rcases hc with hc | hc
  · rw [hc]
  · cases m.Next with
    | none => rfl
    | some next => simp [hc]

/-- C9: when the next link is absent or the caller pinned a page, `nextPage`
returns the empty string; a non-nil `opts` then has `Meta = meta` and every
other field, every slice element and every other object as before; with nil
`opts` nothing changes. -/
theorem nextPage_no_advance (h : Heap) (m : meta) (opts : Ptr)
    (hc : m.Next = none ∨ GetPage h opts ≠ 0) (ok : h.ptrOK opts) :
    (opts = none → nextPage h m opts = .ok ([], h)) ∧
    (∀ a, opts = some a →
      ∃ h1, nextPage h m opts = .ok ([], h1) ∧
        h1.deref a = { h.deref a with Meta := m } ∧
        h1.arrays = h.arrays ∧
        h1.objs.length = h.objs.length ∧
        h1.elems (h1.deref a).Includes = h.elems (h.deref a).Includes ∧
        h1.elems (h1.deref a).Excludes = h.elems (h.deref a).Excludes ∧
        (∀ b, b ≠ a → h1.deref b = h.deref b)) := by
  have hnp := nextPage_else h m opts hc
  refine ⟨?_, ?_⟩
  · intro e; rw [hnp, e]
  · intro a e
    subst e
    have ha : a < h.objs.length := ok.1
    refine ⟨h.store a { h.deref a with Meta := m }, hnp, ?_, rfl, ?_, ?_, ?_, ?_⟩
    · exact Heap.deref_store_self h a _ ha
    · simp [Heap.store]
    · rw [Heap.deref_store_self h a _ ha]; rfl
    · rw [Heap.deref_store_self h a _ ha]; rfl
    · intro b hb
      exact Heap.deref_store_other h a b _ hb

theorem nextPage_no_advance_witness :
    nextPage {} { CurrentPageNum := 2 } none = .ok ([], {}) ∧
    ∃ h1, nextPage heapPinned metaBatches (some 0) = .ok ([], h1) ∧
      h1.deref 0 = { Page := 5, Meta := metaBatches } := by
  have hw := nextPage_no_advance heapPinned metaBatches (some 0) (Or.inr (by decide)) (by decide)
  obtain ⟨h1, e1, e2, _⟩ := hw.2 0 rfl
  refine ⟨?_, h1, e1, ?_⟩
  · exact (nextPage_no_advance {} { CurrentPageNum := 2 } none (Or.inl rfl) (by decide)).1 rfl
  · rw [e2]; rfl

theorem stripQuery_of_parse_error (href : GoString) (he : Parse href = none) :
    stripQuery href = .error .nilPointerDereference := by
  simp [stripQuery, he]

/-- C10 (evaluation at the input that breaks it): `url.Parse(":")` fails
("missing protocol scheme") and returns a nil `*URL`; `stripQuery(":")` then
panics on `u.RawQuery = ""`, and so does `nextPage` with that next link and
unpinned options: no path is returned. -/
theorem stripQuery_malformed_panics :
    Parse (str ":") = none ∧
    stripQuery (str ":") = .error .nilPointerDereference ∧
    nextPage {} { Next := some ⟨str ":"⟩, CurrentPageNum := 2 } none =
      .error .nilPointerDereference := by
  decide

/-! ## The query of the next link is dropped -/

theorem cut_not_mem (c : UInt8) : ∀ (p : GoString), c ∉ p → cut p c = (p, [], false)
  | [], _ => rfl
  | b :: p, h => by
    have hb : (b == c) = false := by
      simp only [beq_eq_false_iff_ne, ne_eq]
      intro e; exact h (by simp [e])
    have := cut_not_mem c p (fun hm => h (by simp [hm]))
    simp [cut, hb, this]

theorem cut_append (c : UInt8) (q : GoString) : ∀ (p : GoString), c ∉ p →
    cut (p ++ c :: q) c = (p, q, true)
  | [], _ => by simp [cut]
  | b :: p, h => by
    have hb : (b == c) = false := by
      simp only [beq_eq_false_iff_ne, ne_eq]
      intro e; exact h (by simp [e])
    have := cut_append c q p (fun hm => h (by simp [hm]))
    simp [cut, hb, this]

theorem ctl_append (p q : GoString) (hq : stringContainsCTLByte q = false) :
    stringContainsCTLByte (p ++ ch '?' :: q) = stringContainsCTLByte p := by
  unfold stringContainsCTLByte at *
  rw [List.any_append, List.any_cons, hq]
  have : ((ch '?' < ch ' ') || (ch '?' == 0x7f)) = false := by decide
  simp [this]

theorem getSchemeLoop_append (p q : GoString) :
    ∀ (rest : GoString) (i : Nat), i + rest.length = p.length →
    getSchemeLoop (p ++ ch '?' :: q) i (rest ++ ch '?' :: q) =
      (getSchemeLoop p i rest).map (fun sr => (sr.1, sr.2 ++ ch '?' :: q))
  | [], i, hi => by
    have h1 : ((ch 'a' ≤ ch '?' && ch '?' ≤ ch 'z') ||
        (ch 'A' ≤ ch '?' && ch '?' ≤ ch 'Z')) = false := by decide
    have h2 : ((ch '0' ≤ ch '?' && ch '?' ≤ ch '9') || ch '?' == ch '+' ||
        ch '?' == ch '-' || ch '?' == ch '.') = false := by decide
    have h3 : (ch '?' == ch ':') = false := by decide
    simp only [List.nil_append, getSchemeLoop, h1, h2, h3, Option.map]
    simp
  | c :: rest, i, hi => by
    simp only [List.length_cons] at hi
    have ih := getSchemeLoop_append p q rest (i + 1) (by omega)
    simp only [List.cons_append, getSchemeLoop]
    split
    · exact ih
    · split
      · split
        · simp
        · exact ih
      · split
        · split
          · simp
          · simp only [Option.map]
            rw [List.take_append_of_le_length (by omega),
              List.drop_append_of_le_length (by omega)]
        · simp

theorem countByte_not_mem (c : UInt8) (r : GoString) (h : c ∉ r) : countByte r c = 0 := by
  unfold countByte
  rw [List.length_eq_zero, List.filter_eq_nil_iff]
  intro a ha hc
  exact h (by rw [← beq_iff_eq.1 hc]; exact ha)

theorem force_append (r q : GoString) (hq : q ≠ []) :
    (hasSuffix (r ++ ch '?' :: q) (str "?") &&
      countByte (r ++ ch '?' :: q) (ch '?') == 1) = false := by
  rcases List.eq_nil_or_concat q with e | ⟨q1, x, e⟩
  · exact absurd e hq
  · subst e
    by_cases hx : x = ch '?'
    · subst hx
      have : countByte (r ++ ch '?' :: (q1 ++ [ch '?'])) (ch '?') ≠ 1 := by
        simp [countByte, List.filter_append, List.filter_cons]
        omega
      simp [this]
    · have : hasSuffix (r ++ ch '?' :: (q1 ++ [x])) (str "?") = false := by
        have e1 : r ++ ch '?' :: (q1 ++ [x]) = (r ++ ch '?' :: q1) ++ [x] := by simp
        have e2 : (str "?").length = 1 := rfl
        unfold hasSuffix
        rw [e1, e2, List.length_append, List.length_singleton, Nat.add_sub_cancel,
          List.drop_left]
        have e3 : str "?" = [ch '?'] := rfl
        rw [e3]
        simp [hx]
      simp [this]

theorem force_plain (r : GoString) (hr : ch '?' ∉ r) :
    (hasSuffix r (str "?") && countByte r (ch '?') == 1) = false := by
  simp [countByte_not_mem _ _ hr]

theorem parseHier_rawQuery (url : URL) (rest q : GoString) :
    parseHier { url with RawQuery := q } rest =
      (parseHier url rest).map (fun u => { u with RawQuery := q }) := by
  unfold parseHier
  simp only
  split
  · rfl
  · split
    · rfl
    · split
      · cases parseAuthority (cut (List.drop 2 rest) (ch '/')).1 with
        | none => rfl
        | some uh =>
          simp only [URL.setPath]
          split <;> rfl
      · split
        · simp only [URL.setPath]
          split <;> rfl
        · simp only [URL.setPath]
          split <;> rfl

theorem getSchemeLoop_rest (p : GoString) :
    ∀ (rest : GoString) (i : Nat) (s r : GoString),
    getSchemeLoop p i rest = some (s, r) → r = p ∨ ∃ k, r = p.drop k
  | [], i, s, r, h => by
    simp only [getSchemeLoop, Option.some.injEq, Prod.mk.injEq] at h
    exact Or.inl h.2.symm
  | c :: rest, i, s, r, h => by
    simp only [getSchemeLoop] at h
    split at h
    · exact getSchemeLoop_rest p rest (i + 1) s r h
    · split at h
      · split at h
        · simp only [Option.some.injEq, Prod.mk.injEq] at h
          exact Or.inl h.2.symm
        · exact getSchemeLoop_rest p rest (i + 1) s r h
      · split at h
        · split at h
          · simp at h
          · simp only [Option.some.injEq, Prod.mk.injEq] at h
            exact Or.inr ⟨i + 1, h.2.symm⟩
        · simp only [Option.some.injEq, Prod.mk.injEq] at h
          exact Or.inl h.2.symm

theorem getScheme_not_mem (p s r : GoString) (c : UInt8) (hc : c ∉ p)
    (h : getScheme p = some (s, r)) : c ∉ r := by
  rcases getSchemeLoop_rest p p 0 s r h with e | ⟨k, e⟩
  · rw [e]; exact hc
  · rw [e]; exact fun hm => hc (List.mem_of_mem_drop hm)

theorem getScheme_append (p q : GoString) :
    getScheme (p ++ ch '?' :: q) =
      (getScheme p).map (fun sr => (sr.1, sr.2 ++ ch '?' :: q)) :=
  getSchemeLoop_append p q p 0 (by simp)

theorem parse_append (p q : GoString) (hp : ch '?' ∉ p) (hq : q ≠ [])
    (hctl : stringContainsCTLByte q = false) :
    parse (p ++ ch '?' :: q) =
      if stringContainsCTLByte p then none
      else match getScheme p with
        | none => none
        | some sr => (parseHier { Scheme := toLower sr.1 } sr.2).map
            (fun u => { u with RawQuery := q }) := by
  have hstar : (p ++ ch '?' :: q == str "*") = false := by
    rw [beq_eq_false_iff_ne]
    intro e
    have : ch '?' ∈ str "*" := by rw [← e]; simp
    revert this; decide
  unfold parse
  rw [ctl_append p q hctl, hstar, getScheme_append]
  split
  · rfl
  · cases hg : getScheme p with
    | none => rfl
    | some sr =>
      obtain ⟨s, r⟩ := sr
      have hr := getScheme_not_mem p s r _ hp hg
      simp only [Option.map, force_append r q hq, cut_append _ q r hr]
      exact parseHier_rawQuery { Scheme := toLower s } r q

theorem parse_plain (p : GoString) (hp : ch '?' ∉ p) (hstar : p ≠ str "*") :
    parse p =
      if stringContainsCTLByte p then none
      else match getScheme p with
        | none => none
        | some sr => parseHier { Scheme := toLower sr.1 } sr.2 := by
  have hs : (p == str "*") = false := by rw [beq_eq_false_iff_ne]; exact hstar
  unfold parse
  rw [hs]
  split
  · rfl
  · cases hg : getScheme p with
    | none => rfl
    | some sr =>
      obtain ⟨s, r⟩ := sr
      have hr := getScheme_not_mem p s r _ hp hg
      simp only [force_plain r hr, cut_not_mem _ r hr]
      rfl

theorem Parse_no_fragment (x : GoString) (hx : ch '#' ∉ x) : Parse x = parse x := by
  unfold Parse
  rw [cut_not_mem _ x hx]
  cases parse x <;> rfl

/-- The query of a link plays no part in what `stripQuery` returns: for a
link `p?q` with a non-empty `q` the result is that of `p` alone. -/
theorem stripQuery_append (p q : GoString) (hp : ch '?' ∉ p) (hp2 : ch '#' ∉ p)
    (hq : q ≠ []) (hq2 : ch '#' ∉ q) (hctl : stringContainsCTLByte q = false) :
    stripQuery (p ++ ch '?' :: q) = stripQuery p := by
  have hx : ch '#' ∉ p ++ ch '?' :: q := by
    simp only [List.mem_append, List.mem_cons, not_or]
    exact ⟨hp2, by decide, hq2⟩
  unfold stripQuery
  rw [Parse_no_fragment _ hx, Parse_no_fragment _ hp2, parse_append p q hp hq hctl]
  by_cases hstar : p = str "*"
  · subst hstar
    have h1 : stringContainsCTLByte (str "*") = false := by decide
    have h2 : getScheme (str "*") = some ([], str "*") := by decide
    have h3 : parseHier { Scheme := toLower [] } (str "*") =
        some { Path := str "*", RawPath := str "*" } := by decide
    have h4 : parse (str "*") = some { Path := str "*" } := by decide
    rw [h1, h2, h4]
    simp only [h3, Option.map, Bool.false_eq_true, if_false]
    have h5 : URL.String { Path := str "*", RawPath := str "*" } =
        URL.String { Path := str "*" } := by decide
    exact congrArg Except.ok h5
  · rw [parse_plain p hp hstar]
    by_cases hc : stringContainsCTLByte p = true
    · simp only [hc, if_true]
    · simp only [hc, if_false]
      cases getScheme p with
      | none => rfl
      | some sr =>
        simp only
        cases parseHier { Scheme := toLower sr.1 } sr.2 <;> rfl

/-! ## The values that are encoded -/

theorem Values.Get_Add (k x k' : GoString) : ∀ (v : Values),
    (Values.Add v k x).Get k' = if k' = k then v.Get k' ++ [x] else v.Get k'
  | [] => by
    by_cases e : k' = k
    · subst e; simp [Values.Add, Values.Get]
    · have : (k == k') = false := by rw [beq_eq_false_iff_ne]; exact fun e2 => e e2.symm
      simp [Values.Add, Values.Get, e, this]
  | (k0, vs) :: rest => by
    have ih := Values.Get_Add k x k' rest
    by_cases e0 : k0 = k
    · subst e0
      by_cases e : k' = k0
      · subst e; simp [Values.Add, Values.Get]
      · have : (k0 == k') = false := by rw [beq_eq_false_iff_ne]; exact fun e2 => e e2.symm
        simp [Values.Add, Values.Get, e, this]
    · have h0 : (k0 == k) = false := by rw [beq_eq_false_iff_ne]; exact e0
      by_cases e1 : k0 = k'
      · subst e1
        simp [Values.Add, Values.Get, h0, e0]
      · have h1 : (k0 == k') = false := by rw [beq_eq_false_iff_ne]; exact e1
        simp only [Values.Add, h0, Bool.false_eq_true, if_false]
        simp only [Values.Get, List.find?_cons, h1] at ih ⊢
        exact ih

theorem reflectValue_page (includes excludes : List GoString) (g : GetOptions)
    (hp : g.Page ≠ 0) :
    (reflectValue includes excludes g).Get (str "page") = [formatInt g.Page] := by
  have e1 : str "page" ≠ str "include" := by decide
  have e2 : str "page" ≠ str "exclude" := by decide
  have e3 : str "page" ≠ str "per_page" := by decide
  have e4 : str "page" ≠ str "search" := by decide
  have e5 : str "page" ≠ str "sort_by" := by decide
  have e6 : str "page" ≠ str "sort_direction" := by decide
  have hg : ∀ (v : Values) (name : GoString) (l : List GoString), str "page" ≠ name →
      (addCommaField v name l).Get (str "page") = v.Get (str "page") := by
    intro v name l hne
    unfold addCommaField
    split
    · rfl
    · rw [Values.Get_Add, if_neg hne]
  have hi : ∀ (v : Values) (name : GoString) (i : Int), str "page" ≠ name →
      (addIntField v name i).Get (str "page") = v.Get (str "page") := by
    intro v name l hne
    unfold addIntField
    split
    · rfl
    · rw [Values.Get_Add, if_neg hne]
  have hs : ∀ (v : Values) (name : GoString) (x : GoString), str "page" ≠ name →
      (addStringField v name x).Get (str "page") = v.Get (str "page") := by
    intro v name l hne
    unfold addStringField
    split
    · rfl
    · rw [Values.Get_Add, if_neg hne]
  unfold reflectValue
  simp only
  rw [hs _ _ _ e6, hs _ _ _ e5, hs _ _ _ e4, hi _ _ _ e3]
  have hp2 : (g.Page == 0) = false := by rw [beq_eq_false_iff_ne]; exact hp
  simp only [addIntField, hp2, Bool.false_eq_true, if_false]
  rw [Values.Get_Add, if_pos rfl, hg _ _ _ e2, hg _ _ _ e1]
  rfl

theorem mem_insertKey (k a : GoString) : ∀ (l : List GoString),
    a ∈ insertKey k l ↔ a = k ∨ a ∈ l
  | [] => by simp [insertKey]
  | x :: xs => by
    have ih := mem_insertKey k a xs
    simp only [insertKey]
    split
    · simp only [List.mem_cons, ih]; tauto
    · simp only [List.mem_cons]

theorem mem_sortKeys (a : GoString) : ∀ (l : List GoString), a ∈ sortKeys l ↔ a ∈ l
  | [] => by simp [sortKeys]
  | x :: xs => by
    have ih := mem_sortKeys a xs
    unfold sortKeys at ih ⊢
    simp only [List.foldr_cons, mem_insertKey, ih, List.mem_cons]

theorem Values.mem_keys_of_Get (v : Values) (k : GoString) (h : v.Get k ≠ []) :
    k ∈ v.map Prod.fst := by
  unfold Values.Get at h
  cases hf : v.find? (fun kv => kv.1 == k) with
  | none => simp [hf] at h
  | some kv =>
    have h1 := List.find?_some hf
    have h2 := List.mem_of_find?_eq_some hf
    simp only [beq_iff_eq] at h1
    rw [← h1]
    exact List.mem_map_of_mem _ h2

theorem encodeValues_ne (k : GoString) : ∀ (vals : List GoString) (buf : GoString),
    buf ≠ [] ∨ vals ≠ [] →
    vals.foldl (fun buf x =>
      (if buf.length > 0 then buf ++ str "&" else buf) ++
        QueryEscape k ++ str "=" ++ QueryEscape x) buf ≠ []
  | [], buf, h => by
    rcases h with h | h
    · exact h
    · exact absurd rfl h
  | x :: vals, buf, _ => by
    simp only [List.foldl_cons]
    apply encodeValues_ne k vals
    left
    have : str "=" = [ch '='] := rfl
    simp [this]

theorem encodeKeys_ne (v : Values) : ∀ (keys : List GoString) (buf : GoString),
    buf ≠ [] ∨ (∃ k ∈ keys, v.Get k ≠ []) →
    keys.foldl (fun buf k =>
      (Values.Get v k).foldl (fun buf x =>
        (if buf.length > 0 then buf ++ str "&" else buf) ++
          QueryEscape k ++ str "=" ++ QueryEscape x) buf) buf ≠ []
  | [], buf, h => by
    rcases h with h | ⟨k, hk, _⟩
    · exact h
    · simp at hk
  | k0 :: keys, buf, h => by
    simp only [List.foldl_cons]
    apply encodeKeys_ne v keys
    rcases h with h | ⟨k, hk, hg⟩
    · exact Or.inl (encodeValues_ne k0 _ buf (Or.inl h))
    · rcases List.mem_cons.1 hk with e | hk
      · subst e
        exact Or.inl (encodeValues_ne k _ buf (Or.inr hg))
      · exact Or.inr ⟨k, hk, hg⟩

theorem Values.Encode_ne (v : Values) (k : GoString) (h : v.Get k ≠ []) :
    Values.Encode v ≠ [] := by
  unfold Values.Encode
  apply encodeKeys_ne v
  right
  exact ⟨k, (mem_sortKeys k _).2 (Values.mem_keys_of_Get v k h), h⟩

theorem escape_safe (mode : encoding) : ∀ (s : GoString),
    (∀ c ∈ s, shouldEscape c mode = false ∧ c ≠ ch ' ') → escape s mode = s
  | [], _ => rfl
  | c :: s, h => by
    have ih := escape_safe mode s (fun a ha => h a (by simp [ha]))
    obtain ⟨h1, h2⟩ := h c (by simp)
    have h3 : (c == ch ' ') = false := by rw [beq_eq_false_iff_ne]; exact h2
    unfold escape at ih ⊢
    simp only [List.flatMap_cons, h1, h3, Bool.false_and, Bool.false_eq_true, if_false, ih]
    rfl

theorem digitChar_safe (d : Nat) (hd : d < 10) :
    shouldEscape (ch (Nat.digitChar d)) .encodeQueryComponent = false ∧
      ch (Nat.digitChar d) ≠ ch ' ' := by
  interval_cases d <;> decide

theorem toDigitsCore_safe : ∀ (fuel n : Nat) (ds : List Char),
    (∀ c ∈ ds, shouldEscape (ch c) .encodeQueryComponent = false ∧ ch c ≠ ch ' ') →
    ∀ c ∈ Nat.toDigitsCore 10 fuel n ds,
      shouldEscape (ch c) .encodeQueryComponent = false ∧ ch c ≠ ch ' '
  | 0, _, ds, h => by simpa [Nat.toDigitsCore] using h
  | fuel + 1, n, ds, h => by
    have hd := digitChar_safe (n % 10) (Nat.mod_lt _ (by decide))
    have h2 : ∀ c ∈ Nat.digitChar (n % 10) :: ds,
        shouldEscape (ch c) .encodeQueryComponent = false ∧ ch c ≠ ch ' ' := by
      intro c hc
      rcases List.mem_cons.1 hc with e | hc
      · rw [e]; exact hd
      · exact h c hc
    simp only [Nat.toDigitsCore]
    split
    · exact h2
    · exact toDigitsCore_safe fuel (n / 10) _ h2

theorem QueryEscape_formatInt (i : Int) : QueryEscape (formatInt i) = formatInt i := by
  apply escape_safe
  have hd : ∀ c ∈ (Nat.toDigits 10 i.natAbs).map ch,
      shouldEscape c .encodeQueryComponent = false ∧ c ≠ ch ' ' := by
    intro c hc
    obtain ⟨a, ha, rfl⟩ := List.mem_map.1 hc
    exact toDigitsCore_safe _ _ [] (by simp) a ha
  unfold formatInt
  split
  · intro c hc
    rcases List.mem_cons.1 hc with e | hc
    · rw [e]; decide
    · exact hd c hc
  · exact hd

theorem Encode_page_only (g : GetOptions) (hp : g.Page ≠ 0) (h2 : g.PerPage = 0)
    (h3 : g.Search = []) (h4 : g.SortBy = []) (h5 : g.SortDirection = []) :
    Values.Encode (reflectValue [] [] g) = str "page=" ++ formatInt g.Page := by
  have hp2 : (g.Page == 0) = false := by rw [beq_eq_false_iff_ne]; exact hp
  have hv : reflectValue [] [] g = [(str "page", [formatInt g.Page])] := by
    simp [reflectValue, addCommaField, addIntField, addStringField, hp2, h2, h3, h4, h5,
      Values.Add]
  rw [hv]
  simp only [Values.Encode, List.map, sortKeys, List.foldr, insertKey, List.foldl, Values.Get,
    List.find?, beq_self_eq_true, List.length_nil, gt_iff_lt, Nat.lt_irrefl, if_false,
    List.nil_append, QueryEscape_formatInt]
  have : QueryEscape (str "page") ++ str "=" = str "page=" := by decide
  rw [this]

theorem wrapInt_of_range (x : Int) (h1 : -2 ^ 63 ≤ x) (h2 : x < 2 ^ 63) : wrapInt x = x := by
  unfold wrapInt
  norm_num at h1 h2 ⊢
  omega

/-- C8 (as amended): for a link `p?q` where `p` has no `?` or `#` and is
printed back unchanged by `url.Parse(p).String()`, `q` is not empty and has no
`#` and no control byte, `0 ≤ n < 2^63 - 1`, and options without a pinned
page, `nextPage` returns `p + "?" +` the encoding of a new object that equals
the options except for `Page = n + 1`; `q` plays no part in it.  The value
encoded under `page` is the decimal `n + 1`, and for nil or empty options the
path is exactly `p + "?page=" + decimal(n + 1)`. -/
theorem nextPage_drops_link_query (h : Heap) (opts : Ptr) (p q : GoString) (n : Int)
    (hp1 : ch '?' ∉ p) (hp2 : ch '#' ∉ p) (hp3 : stripQuery p = .ok p)
    (hq1 : q ≠ []) (hq2 : ch '#' ∉ q) (hq3 : stringContainsCTLByte q = false)
    (hn1 : 0 ≤ n) (hn2 : n < 2 ^ 63 - 1) (hpage : GetPage h opts = 0) :
    ∃ (h1 : Heap) (c : Addr),
      nextPage h { Next := some ⟨p ++ ch '?' :: q⟩, CurrentPageNum := n } opts =
        .ok (p ++ str "?" ++ Encode h1 (some c), h1) ∧
      c = h.objs.length ∧
      h1.objs = h.objs ++ [{ h.valueOf opts with Page := n + 1 }] ∧
      h1.arrays = h.arrays ∧
      (queryValues h1 (some c)).Get (str "page") = [formatInt (n + 1)] ∧
      (h.elems (h.valueOf opts).Includes = [] → h.elems (h.valueOf opts).Excludes = [] →
        (h.valueOf opts).PerPage = 0 → (h.valueOf opts).Search = [] →
        (h.valueOf opts).SortBy = [] → (h.valueOf opts).SortDirection = [] →
        Encode h1 (some c) = str "page=" ++ formatInt (n + 1)) := by
  have hw : wrapInt (n + 1) = n + 1 :=
    wrapInt_of_range _ (by norm_num; omega) (by norm_num at hn2 ⊢; omega)
  obtain ⟨h1, c, e1, _, e3, e4, e5, e6, e7⟩ :=
    nextPage_advance_aux h { Next := some ⟨p ++ ch '?' :: q⟩, CurrentPageNum := n } opts
      ⟨p ++ ch '?' :: q⟩ rfl hpage
  simp only [hw] at e4 e6 e7
  have hne : n + 1 ≠ 0 := by omega
  have hget : (queryValues h1 (some c)).Get (str "page") = [formatInt (n + 1)] := by
    simp only [queryValues]
    rw [reflectValue_page _ _ _ (by rw [e6]; exact hne), e6]
  have hEnc : Encode h1 (some c) ≠ [] := by
    apply Values.Encode_ne _ (str "page")
    rw [hget]; simp
  refine ⟨h1, c, ?_, e3, e4, e5, hget, ?_⟩
  · rw [e1]
    simp only [stripQuery_append p q hp1 hp2 hq1 hq2 hq3, hp3, WithQuery]
    have : (Encode h1 (some c) != []) = true := by
      rw [bne_iff_ne]; exact hEnc
    rw [if_pos this]
  · intro i1 i2 i3 i4 i5 i6
    rw [e7, i1, i2]
    exact Encode_page_only _ hne i3 i4 i5 i6

theorem nextPage_drops_link_query_witness :
    ∃ (h1 : Heap),
      nextPage {} { Next := some ⟨str "/batches?foo=bar"⟩, CurrentPageNum := 2 } none =
        .ok (str "/batches?page=3", h1) := by
  obtain ⟨h1, c, e1, _, _, _, _, e6⟩ :=
    nextPage_drops_link_query {} none (str "/batches") (str "foo=bar") 2
      (by decide) (by decide) (by decide) (by decide) (by decide) (by decide)
      (by decide) (by decide) rfl
  refine ⟨h1, ?_⟩
  have e7 := e6 rfl rfl rfl rfl rfl rfl
  rw [e7] at e1
  exact e1

/-- C8 (as stated, refuted): (1) the path `/a b` has no `?` or `#` and parses,
but with the link `/a b?foo=bar` the path returned is `/a%20b?page=3`, which
does not begin with `/a b?`; (2) with the empty query, link `/batches?`, the
path returned is `/batches??page=3`; (3) with current page `2^63 - 1` the page
number wraps: `/batches?page=-9223372036854775808`. -/
theorem nextPage_link_path_not_kept :
    ch '?' ∉ str "/a b" ∧ ch '#' ∉ str "/a b" ∧ (Parse (str "/a b")).isSome = true ∧
    nextPage {} { Next := some ⟨str "/a b" ++ str "?" ++ str "foo=bar"⟩, CurrentPageNum := 2 }
      none = .ok (str "/a%20b?page=3", { objs := [{ Page := 3 }] }) ∧
    hasPrefix (str "/a%20b?page=3") (str "/a b" ++ str "?") = false ∧
    nextPage {} { Next := some ⟨str "/batches" ++ str "?" ++ str ""⟩, CurrentPageNum := 2 }
      none = .ok (str "/batches??page=3", { objs := [{ Page := 3 }] }) ∧
    nextPage {} { Next := some ⟨str "/batches" ++ str "?" ++ str "foo=bar"⟩,
                  CurrentPageNum := 2 ^ 63 - 1 }
      none = .ok (str "/batches?page=-9223372036854775808",
                  { objs := [{ Page := -2 ^ 63 }] }) := by
  decide

/-! ## `Encode` and its reference definition -/

theorem sortKeys_present : ∀ b1 b2 b3 b4 b5 b6 b7 : Bool,
    sortKeys ((if b1 then [str "include"] else []) ++ (if b2 then [str "exclude"] else []) ++
      (if b3 then [str "page"] else []) ++ (if b4 then [str "per_page"] else []) ++
      (if b5 then [str "search"] else []) ++ (if b6 then [str "sort_by"] else []) ++
      (if b7 then [str "sort_direction"] else [])) =
    (if b2 then [str "exclude"] else []) ++ (if b1 then [str "include"] else []) ++
      (if b3 then [str "page"] else []) ++ (if b4 then [str "per_page"] else []) ++
      (if b5 then [str "search"] else []) ++ (if b6 then [str "sort_by"] else []) ++
      (if b7 then [str "sort_direction"] else []) := by
  decide

theorem join_cons_cons (a b : GoString) (rest : List GoString) (sep : GoString) :
    join (a :: b :: rest) sep = a ++ sep ++ join (b :: rest) sep := rfl

/-- The loop of `Values.Encode` over keys that each hold one value. -/
theorem encodeLoop_join (e : GoString → GoString) (he : ∀ k, e k ≠ []) :
    ∀ (keys : List GoString) (buf : GoString), buf ≠ [] →
    keys.foldl (fun buf k => (if buf.length > 0 then buf ++ str "&" else buf) ++ e k) buf =
      join (buf :: keys.map e) (str "&")
  | [], buf, _ => rfl
  | k :: keys, buf, hb => by
    have hlen : buf.length > 0 := List.length_pos.2 hb
    simp only [List.foldl_cons, hlen, if_true, List.map_cons, join_cons_cons]
    rw [encodeLoop_join e he keys _ (by simp [hb])]
    cases keys with
    | nil => simp [join]
    | cons k2 keys => simp [join_cons_cons, List.append_assoc]

theorem encodeLoop_join_nil (e : GoString → GoString) (he : ∀ k, e k ≠ []) :
    ∀ (keys : List GoString),
    keys.foldl (fun buf k => (if buf.length > 0 then buf ++ str "&" else buf) ++ e k) [] =
      join (keys.map e) (str "&")
  | [] => rfl
  | k :: keys => by
    simp only [List.foldl_cons, List.length_nil, gt_iff_lt, Nat.lt_irrefl, if_false,
      List.nil_append, List.map_cons]
    exact encodeLoop_join e he keys (e k) (he k)

theorem foldl_congr_mem {α β : Type} (f g : β → α → β) :
    ∀ (l : List α) (b : β), (∀ a ∈ l, ∀ b, f b a = g b a) → l.foldl f b = l.foldl g b
  | [], _, _ => rfl
  | a :: l, b, h => by
    simp only [List.foldl_cons]
    rw [h a (by simp) b]
    exact foldl_congr_mem f g l _ (fun a' ha' => h a' (by simp [ha']))

theorem Values.Get_single (v : Values) (hv : (v.all fun kv => kv.2.length == 1) = true)
    (k : GoString) (hk : k ∈ v.map Prod.fst) : v.Get k = [(v.Get k).headD []] := by
  unfold Values.Get
  cases hf : v.find? (fun kv => kv.1 == k) with
  | none =>
    exfalso
    obtain ⟨kv, hkv, rfl⟩ := List.mem_map.1 hk
    have := List.find?_eq_none.1 hf kv hkv
    simp at this
  | some kv =>
    have h1 := List.all_eq_true.1 hv kv (List.mem_of_find?_eq_some hf)
    simp only [beq_iff_eq] at h1
    obtain ⟨x, hx⟩ := List.length_eq_one.1 h1
    simp [hx]

/-- `Values.Encode` when every key holds one value: the `&`-join, over the
sorted keys, of `key=value`, both escaped. -/
theorem Values.Encode_single (v : Values) (hv : (v.all fun kv => kv.2.length == 1) = true) :
    Values.Encode v =
      join ((sortKeys (v.map Prod.fst)).map fun k =>
        QueryEscape k ++ str "=" ++ QueryEscape ((v.Get k).headD [])) (str "&") := by
  have he : ∀ k, QueryEscape k ++ str "=" ++ QueryEscape ((v.Get k).headD []) ≠ [] := by
    intro k
    have : str "=" = [ch '='] := rfl
    simp [this]
  rw [← encodeLoop_join_nil _ he]
  unfold Values.Encode
  apply foldl_congr_mem
  intro k hk buf
  rw [Values.Get_single v hv k ((mem_sortKeys k _).1 hk)]
  simp [List.append_assoc]

set_option maxHeartbeats 8000000 in
/-- `Encode` is the reference definition, with `url.QueryEscape` as the
escape. -/
theorem encode_reflect (inc exc : List GoString) (g : GetOptions) :
    Values.Encode (reflectValue inc exc g) = encodeSpec QueryEscape (pairsSpec inc exc g) := by
  obtain ⟨gI, gE, page, perPage, search, sortBy, sortDir, m⟩ := g
  rcases Decidable.em (page = 0) with rfl | hp <;>
  rcases Decidable.em (perPage = 0) with rfl | hpp <;>
  cases inc <;> cases exc <;> cases search <;> cases sortBy <;> cases sortDir <;>
  simp only [reflectValue, addCommaField, addIntField, addStringField, pairsSpec, beq_iff_eq,
    *, if_false] <;>
  exact (Values.Encode_single _ (by rfl)).trans (by rfl)

set_option maxRecDepth 100000 in
theorem shouldEscape_query_fin : ∀ n : Fin (2 ^ 8),
    shouldEscape (UInt8.mk (BitVec.ofFin n)) .encodeQueryComponent =
      !unreserved (UInt8.mk (BitVec.ofFin n)) := by
  decide

theorem shouldEscape_query (c : UInt8) :
    shouldEscape c .encodeQueryComponent = !unreserved c := by
  cases c with
  | mk bv =>
    cases bv with
    | ofFin f => exact shouldEscape_query_fin f

/-- `url.QueryEscape` is percent-encoding except for the space, written `+`. -/
theorem QueryEscape_eq (s : GoString) :
    QueryEscape s = s.flatMap fun c => if c = ch ' ' then [ch '+'] else percentEscaped [c] := by
  unfold QueryEscape escape percentEscaped
  congr 1
  funext c
  by_cases hc : c = ch ' '
  · simp [hc]
  · have : (c == ch ' ') = false := by rw [beq_eq_false_iff_ne]; exact hc
    simp only [this, Bool.false_and, Bool.false_eq_true, if_false, hc, shouldEscape_query,
      List.flatMap_cons, List.flatMap_nil, List.append_nil]
    cases unreserved c <;> simp

theorem QueryEscape_no_space (s : GoString) (hs : ch ' ' ∉ s) :
    QueryEscape s = percentEscaped s := by
  rw [QueryEscape_eq]
  unfold percentEscaped
  induction s with
  | nil => rfl
  | cons c s ih =>
    have hc : c ≠ ch ' ' := fun e => hs (by simp [e])
    simp only [List.flatMap_cons, hc, if_false, List.flatMap_nil, List.append_nil] at ih ⊢
    rw [ih (fun hm => hs (by simp [hm]))]

/-! ## `WithQuery`, `Encode`, `GetPage`, `GetOptions` -/

/-- C11: `WithQuery(p)` is `p` when `Encode()` is empty and `p + "?" + Encode()`
otherwise, for every receiver (nil included); it never returns `p` followed
by a bare `?`. -/
theorem WithQuery_spec (h : Heap) (g : Ptr) (p : GoString) :
    (Encode h g = [] → WithQuery h g p = p) ∧
    (Encode h g ≠ [] → WithQuery h g p = p ++ str "?" ++ Encode h g) ∧
    WithQuery h g p ≠ p ++ str "?" := by
  have e1 : str "?" = [ch '?'] := rfl
  by_cases he : Encode h g = []
  · have hw : WithQuery h g p = p := by simp [WithQuery, he]
    refine ⟨fun _ => hw, fun hne => absurd he hne, ?_⟩
    rw [hw, e1]
    intro e
    have := congrArg List.length e
    simp at this
  · have hw : WithQuery h g p = p ++ str "?" ++ Encode h g := by simp [WithQuery, he]
    refine ⟨fun e => absurd e he, fun _ => hw, ?_⟩
    rw [hw]
    intro e
    have := congrArg List.length e
    simp only [List.length_append] at this
    have hpos : 0 < (Encode h g).length := List.length_pos.2 he
    omega

theorem WithQuery_spec_witness :
    WithQuery {} none (str "/x") = str "/x" ∧
    WithQuery heapFacility (some 0) (str "/batches/abc") =
      str "/batches/abc" ++ str "?" ++ Encode heapFacility (some 0) :=
  ⟨(WithQuery_spec {} none (str "/x")).1 (by decide),
   (WithQuery_spec heapFacility (some 0) (str "/batches/abc")).2.1 (by decide)⟩

theorem encodeSpec_congr (f g : GoString → GoString) (pairs : List (GoString × GoString))
    (hfg : ∀ kv ∈ pairs, f kv.2 = g kv.2) : encodeSpec f pairs = encodeSpec g pairs := by
  unfold encodeSpec
  congr 1
  apply List.map_congr_left
  intro kv hkv
  rw [hfg kv hkv]

/-- C12 (as amended): for every option set, `Encode()` is the `&`-join, in
ascending key order, of `key=escaped(value)` over the fields that are not
omitted (lists comma-joined, numbers in decimal), where `escaped` is
`url.QueryEscape`: percent-encoding, except that a space is written `+`.  When
no value holds a space this is the percent-encoded reference definition.  For
the nil receiver `Encode()` is empty. -/
theorem Encode_eq_reference (h : Heap) (a : Addr) :
    Encode h (some a) =
      encodeSpec QueryEscape
        (pairsSpec (h.elems (h.deref a).Includes) (h.elems (h.deref a).Excludes) (h.deref a)) ∧
    (∀ s, QueryEscape s =
      s.flatMap fun c => if c = ch ' ' then [ch '+'] else percentEscaped [c]) ∧
    ((∀ kv ∈ pairsSpec (h.elems (h.deref a).Includes) (h.elems (h.deref a).Excludes)
        (h.deref a), ch ' ' ∉ kv.2) →
      Encode h (some a) =
        encodeSpec percentEscaped
          (pairsSpec (h.elems (h.deref a).Includes) (h.elems (h.deref a).Excludes)
            (h.deref a))) ∧
    Encode h none = [] := by
  have e1 := encode_reflect (h.elems (h.deref a).Includes) (h.elems (h.deref a).Excludes)
    (h.deref a)
  refine ⟨e1, QueryEscape_eq, ?_, rfl⟩
  intro hs
  show Values.Encode (reflectValue _ _ _) = _
  rw [e1]
  exact encodeSpec_congr _ _ _ (fun kv hkv => QueryEscape_no_space _ (hs kv hkv))

theorem Encode_eq_reference_witness :
    Encode heapFacility (some 0) = str "include=facility&per_page=10" ∧
    WithQuery heapFacility (some 0) (str "/batches/abc") =
      str "/batches/abc?include=facility&per_page=10" :=
  ⟨((Encode_eq_reference heapFacility 0).2.2.1 (by decide)).trans (by decide), by decide⟩

/-- C12 (as stated, refuted): with `Search: "a b"` the code encodes
`search=a+b`, while the percent-escaped reference definition gives
`search=a%20b`. -/
theorem Encode_space_not_percent :
    Encode heapSpace (some 0) = str "search=a+b" ∧
    encodeSpec percentEscaped
      (pairsSpec (heapSpace.elems (heapSpace.deref 0).Includes)
        (heapSpace.elems (heapSpace.deref 0).Excludes) (heapSpace.deref 0)) =
      str "search=a%20b" ∧
    Encode heapSpace (some 0) ≠
      encodeSpec percentEscaped
        (pairsSpec (heapSpace.elems (heapSpace.deref 0).Includes)
          (heapSpace.elems (heapSpace.deref 0).Excludes) (heapSpace.deref 0)) := by
  decide

theorem join_ne_nil (sep : GoString) (hsep : sep ≠ []) :
    ∀ (l : List GoString), l ≠ [] → l ≠ [[]] → join l sep ≠ []
  | [], h, _ => absurd rfl h
  | [a], _, h => by
    intro e
    simp only [join] at e
    exact h (by rw [e])
  | a :: b :: rest, _, _ => by
    rw [join_cons_cons]
    simp [hsep]

theorem toDigitsCore_ne_nil : ∀ (fuel n : Nat) (ds : List Char),
    (0 < fuel ∨ ds ≠ []) → Nat.toDigitsCore 10 fuel n ds ≠ []
  | 0, _, ds, h => by
    rcases h with h | h
    · omega
    · simpa [Nat.toDigitsCore] using h
  | fuel + 1, n, ds, _ => by
    simp only [Nat.toDigitsCore]
    split
    · simp
    · exact toDigitsCore_ne_nil fuel _ _ (Or.inr (by simp))

theorem formatInt_ne_nil (i : Int) : formatInt i ≠ [] := by
  have hd : (Nat.toDigits 10 i.natAbs).map ch ≠ [] := by
    intro e
    exact toDigitsCore_ne_nil (i.natAbs + 1) i.natAbs [] (Or.inl (by omega))
      (List.map_eq_nil_iff.1 e)
  unfold formatInt
  split
  · simp
  · exact hd

theorem QueryEscape_ne_nil (x : GoString) (hx : x ≠ []) : QueryEscape x ≠ [] := by
  cases x with
  | nil => exact absurd rfl hx
  | cons c cs =>
    unfold QueryEscape escape
    simp only [List.flatMap_cons]
    intro e
    have h1 := (List.append_eq_nil.1 e).1
    split at h1
    · simp at h1
    · split at h1 <;> simp at h1

theorem pairsSpec_keys (inc exc : List GoString) (g : GetOptions) :
    (pairsSpec inc exc g).map Prod.fst =
      (if exc = [] then [] else [str "exclude"]) ++
      (if inc = [] then [] else [str "include"]) ++
      (if g.Page = 0 then [] else [str "page"]) ++
      (if g.PerPage = 0 then [] else [str "per_page"]) ++
      (if g.Search = [] then [] else [str "search"]) ++
      (if g.SortBy = [] then [] else [str "sort_by"]) ++
      (if g.SortDirection = [] then [] else [str "sort_direction"]) := by
  unfold pairsSpec
  simp only [List.map_append]
  split_ifs <;> rfl

theorem pairsSpec_values (inc exc : List GoString) (g : GetOptions)
    (hinc : inc ≠ [[]]) (hexc : exc ≠ [[]]) :
    ∀ kv ∈ pairsSpec inc exc g, kv.2 ≠ [] := by
  have hsep : str "," ≠ [] := by decide
  intro kv hkv
  unfold pairsSpec at hkv
  simp only [List.mem_append] at hkv
  rcases hkv with (((((hkv | hkv) | hkv) | hkv) | hkv) | hkv) | hkv <;>
    split at hkv <;> simp only [List.mem_singleton, List.not_mem_nil] at hkv <;>
    rename_i hc <;> rw [hkv]
  · exact join_ne_nil _ hsep exc hc hexc
  · exact join_ne_nil _ hsep inc hc hinc
  · exact formatInt_ne_nil _
  · exact formatInt_ne_nil _
  · exact hc
  · exact hc
  · exact hc

/-- C13 (as amended): `Encode()` is the join of the pairs of the reference
definition; unless `Includes` or `Excludes` is the one-element list `[""]`,
every pair has a non-empty value, also after escaping; and a field at its
default or empty value (a list without elements, the number 0, the empty
string) has no key in the output. -/
theorem Encode_no_empty_value (h : Heap) (a : Addr) :
    Encode h (some a) =
      encodeSpec QueryEscape
        (pairsSpec (h.elems (h.deref a).Includes) (h.elems (h.deref a).Excludes) (h.deref a)) ∧
    (h.elems (h.deref a).Includes ≠ [[]] → h.elems (h.deref a).Excludes ≠ [[]] →
      ∀ kv ∈ pairsSpec (h.elems (h.deref a).Includes) (h.elems (h.deref a).Excludes)
          (h.deref a), kv.2 ≠ [] ∧ QueryEscape kv.2 ≠ []) ∧
    (h.elems (h.deref a).Includes = [] →
      str "include" ∉ (pairsSpec (h.elems (h.deref a).Includes)
        (h.elems (h.deref a).Excludes) (h.deref a)).map Prod.fst) ∧
    (h.elems (h.deref a).Excludes = [] →
      str "exclude" ∉ (pairsSpec (h.elems (h.deref a).Includes)
        (h.elems (h.deref a).Excludes) (h.deref a)).map Prod.fst) ∧
    ((h.deref a).Page = 0 →
      str "page" ∉ (pairsSpec (h.elems (h.deref a).Includes)
        (h.elems (h.deref a).Excludes) (h.deref a)).map Prod.fst) ∧
    ((h.deref a).PerPage = 0 →
      str "per_page" ∉ (pairsSpec (h.elems (h.deref a).Includes)
        (h.elems (h.deref a).Excludes) (h.deref a)).map Prod.fst) ∧
    ((h.deref a).Search = [] →
      str "search" ∉ (pairsSpec (h.elems (h.deref a).Includes)
        (h.elems (h.deref a).Excludes) (h.deref a)).map Prod.fst) ∧
    ((h.deref a).SortBy = [] →
      str "sort_by" ∉ (pairsSpec (h.elems (h.deref a).Includes)
        (h.elems (h.deref a).Excludes) (h.deref a)).map Prod.fst) ∧
    ((h.deref a).SortDirection = [] →
      str "sort_direction" ∉ (pairsSpec (h.elems (h.deref a).Includes)
        (h.elems (h.deref a).Excludes) (h.deref a)).map Prod.fst) := by
  refine ⟨encode_reflect _ _ _, ?_, ?_, ?_, ?_, ?_, ?_, ?_, ?_⟩
  · intro hi he kv hkv
    have := pairsSpec_values _ _ _ hi he kv hkv
    exact ⟨this, QueryEscape_ne_nil _ this⟩
  all_goals
    intro hz
    rw [pairsSpec_keys]
    simp only [hz, if_true]
    split_ifs <;> decide

theorem Encode_no_empty_value_witness :
    (∀ kv ∈ pairsSpec (heapPlain.elems (heapPlain.deref 0).Includes)
        (heapPlain.elems (heapPlain.deref 0).Excludes) (heapPlain.deref 0),
      kv.2 ≠ [] ∧ QueryEscape kv.2 ≠ []) ∧
    str "page" ∉ (pairsSpec (heapPlain.elems (heapPlain.deref 0).Includes)
        (heapPlain.elems (heapPlain.deref 0).Excludes) (heapPlain.deref 0)).map Prod.fst :=
  ⟨(Encode_no_empty_value heapPlain 0).2.1 (by decide) (by decide),
   (Encode_no_empty_value heapPlain 0).2.2.2.2.1 (by decide)⟩

/-- C13 (as stated, refuted): with `Includes: []string{""}` the field is not
omitted (the slice has one element) and `Encode()` is `include=`, a key with
an empty value. -/
theorem Encode_blank_include :
    heapBlank.elems (heapBlank.deref 0).Includes = [str ""] ∧
    Encode heapBlank (some 0) = str "include=" ∧
    pairsSpec (heapBlank.elems (heapBlank.deref 0).Includes)
      (heapBlank.elems (heapBlank.deref 0).Excludes) (heapBlank.deref 0) =
      [(str "include", [])] := by
  decide

/-- C14: `Meta` never reaches the query string: two option sets that agree on
the elements of `Includes` and `Excludes` and on `Page`, `PerPage`, `Search`,
`SortBy` and `SortDirection`, whatever their `Meta`, have the same `Encode()`
and the same `WithQuery(p)` for every `p`. -/
theorem Encode_ignores_Meta (h1 h2 : Heap) (a1 a2 : Addr)
    (hI : h1.elems (h1.deref a1).Includes = h2.elems (h2.deref a2).Includes)
    (hE : h1.elems (h1.deref a1).Excludes = h2.elems (h2.deref a2).Excludes)
    (hP : (h1.deref a1).Page = (h2.deref a2).Page)
    (hPP : (h1.deref a1).PerPage = (h2.deref a2).PerPage)
    (hS : (h1.deref a1).Search = (h2.deref a2).Search)
    (hSB : (h1.deref a1).SortBy = (h2.deref a2).SortBy)
    (hSD : (h1.deref a1).SortDirection = (h2.deref a2).SortDirection) :
    Encode h1 (some a1) = Encode h2 (some a2) ∧
    ∀ p, WithQuery h1 (some a1) p = WithQuery h2 (some a2) p := by
  have e : Encode h1 (some a1) = Encode h2 (some a2) := by
    simp only [Encode, queryValues, reflectValue, hI, hE, hP, hPP, hS, hSB, hSD]
  exact ⟨e, fun p => by simp only [WithQuery, e]⟩

theorem Encode_ignores_Meta_witness :
    Encode heapPlain (some 0) =
      Encode (heapPlain.store 0 { heapPlain.deref 0 with Meta := metaBatches }) (some 0) ∧
    WithQuery heapPlain (some 0) (str "/batches") =
      WithQuery (heapPlain.store 0 { heapPlain.deref 0 with Meta := metaBatches }) (some 0)
        (str "/batches") :=
  ⟨(Encode_ignores_Meta heapPlain
      (heapPlain.store 0 { heapPlain.deref 0 with Meta := metaBatches }) 0 0
      (by decide) (by decide) (by decide) (by decide) (by decide) (by decide) (by decide)).1,
   (Encode_ignores_Meta heapPlain
      (heapPlain.store 0 { heapPlain.deref 0 with Meta := metaBatches }) 0 0
      (by decide) (by decide) (by decide) (by decide) (by decide) (by decide) (by decide)).2
      (str "/batches")⟩

/-- C15: for the nil receiver, and for an option set whose every field is
zero or empty, `Encode()` is the empty string and `WithQuery(p)` is `p`. -/
theorem Encode_empty (h : Heap) (p : GoString) :
    Encode h none = [] ∧ WithQuery h none p = p ∧
    ∀ a, h.elems (h.deref a).Includes = [] → h.elems (h.deref a).Excludes = [] →
      (h.deref a).Page = 0 → (h.deref a).PerPage = 0 → (h.deref a).Search = [] →
      (h.deref a).SortBy = [] → (h.deref a).SortDirection = [] →
      Encode h (some a) = [] ∧ WithQuery h (some a) p = p := by
  refine ⟨rfl, rfl, ?_⟩
  intro a h1 h2 h3 h4 h5 h6 h7
  have e : Encode h (some a) = [] := by
    simp only [Encode, queryValues, reflectValue, addCommaField, addIntField, addStringField,
      h1, h2, h3, h4, h5, h6, h7]
    rfl
  exact ⟨e, by simp [WithQuery, e]⟩

theorem Encode_empty_witness :
    Encode { objs := [{}] } (some 0) = [] ∧
    WithQuery { objs := [{}] } (some 0) (str "/x") = str "/x" :=
  (Encode_empty { objs := [{}] } (str "/x")).2.2 0 rfl rfl rfl rfl rfl rfl rfl

/-- C16: `GetPage` is total: 0 for the nil receiver, the stored `Page`
otherwise. -/
theorem GetPage_total (h : Heap) :
    GetPage h none = 0 ∧ ∀ a, GetPage h (some a) = (h.deref a).Page :=
  ⟨rfl, fun _ => rfl⟩

/-- C19: `GetOptions()` returns the address of a new object for every receiver:
all fields empty for nil; for a non-nil `g` the `Includes` and `Excludes` of
`g` and every other field zero or empty, whatever `g` held.  No object that
existed before, `g` included, and no backing array changes. -/
theorem getOptions_spec (h : Heap) :
    ((GetOptions.getOptions h none).2 = h.objs.length ∧
      (GetOptions.getOptions h none).1.objs = h.objs ++ [({} : GetOptions)] ∧
      (GetOptions.getOptions h none).1.arrays = h.arrays) ∧
    ∀ a, (GetOptions.getOptions h (some a)).2 = h.objs.length ∧
      (GetOptions.getOptions h (some a)).1.objs =
        h.objs ++ [{ Includes := (h.deref a).Includes, Excludes := (h.deref a).Excludes,
                     Page := 0, PerPage := 0, Search := [], SortBy := [],
                     SortDirection := [], Meta := {} }] ∧
      (GetOptions.getOptions h (some a)).1.arrays = h.arrays ∧
      (GetOptions.getOptions h (some a)).1.deref (GetOptions.getOptions h (some a)).2 =
        { Includes := (h.deref a).Includes, Excludes := (h.deref a).Excludes } :=
  ⟨⟨rfl, rfl, rfl⟩, fun _ => ⟨rfl, rfl, rfl, Heap.deref_alloc_self _ _⟩⟩

/-- With a next link that `url.Parse` accepts and no pinned page, `nextPage`
returns the link printed without its query, followed by `?` and the `&`-join
of the `key=escaped(value)` pairs of `opts` with `Page` overwritten by
`meta.CurrentPageNum + 1` (nothing is appended when that join is empty); the
heap gains the copy and nothing else changes. -/
theorem nextPage_advance_path (h : Heap) (m : meta) (opts : Ptr) (next : Href) (u : URL)
    (hn : m.Next = some next) (hp : GetPage h opts = 0) (hu : Parse next.Href = some u) :
    nextPage h m opts =
      .ok (if encodeSpec QueryEscape
              (pairsSpec (h.elems (h.valueOf opts).Includes) (h.elems (h.valueOf opts).Excludes)
                { h.valueOf opts with Page := wrapInt (m.CurrentPageNum + 1) }) = []
           then URL.String { u with RawQuery := [] }
           else URL.String { u with RawQuery := [] } ++ str "?" ++
             encodeSpec QueryEscape
              (pairsSpec (h.elems (h.valueOf opts).Includes) (h.elems (h.valueOf opts).Excludes)
                { h.valueOf opts with Page := wrapInt (m.CurrentPageNum + 1) }),
           { h with objs :=
               h.objs ++ [{ h.valueOf opts with Page := wrapInt (m.CurrentPageNum + 1) }] }) := by
  obtain ⟨h1, c, _, e2, _, e4, e5, _, e7⟩ := nextPage_advance_aux h m opts next hn hp
  rw [e2 u hu]
  have eh : h1 = { h with objs :=
      h.objs ++ [{ h.valueOf opts with Page := wrapInt (m.CurrentPageNum + 1) }] } := by
    cases h1
    simp only at e4 e5
    rw [e4, e5]
  rw [encode_reflect] at e7
  unfold WithQuery
  rw [e7, ← eh]
  by_cases hq : encodeSpec QueryEscape
      (pairsSpec (h.elems (h.valueOf opts).Includes) (h.elems (h.valueOf opts).Excludes)
        { h.valueOf opts with Page := wrapInt (m.CurrentPageNum + 1) }) = []
  · simp [hq]
  · simp [hq]

/-- C20: on a page advance the caller's options are not mutated: with a next
link and non-nil `opts` with `Page == 0`, whenever `nextPage` returns (it does
for every link that `url.Parse` accepts), the object `opts` points to is as
before (`Page` still 0, `Meta` not overwritten), and so are the elements of
its two slices; the new page number is in the returned path only. -/
theorem nextPage_keeps_opts (h : Heap) (m : meta) (a : Addr) (next : Href)
    (hn : m.Next = some next) (ha : a < h.objs.length) (hp : (h.deref a).Page = 0) :
    (∀ p h1, nextPage h m (some a) = .ok (p, h1) →
      h1.deref a = h.deref a ∧ h1.arrays = h.arrays ∧
      h1.elems (h1.deref a).Includes = h.elems (h.deref a).Includes ∧
      h1.elems (h1.deref a).Excludes = h.elems (h.deref a).Excludes) ∧
    (∀ u, Parse next.Href = some u → ∃ p h1, nextPage h m (some a) = .ok (p, h1)) := by
  obtain ⟨h0, c, e1, e2, _, e4, e5, _, _⟩ := nextPage_advance_aux h m (some a) next hn hp
  have hd : h0.deref a = h.deref a := by
    unfold Heap.deref
    rw [e4]
    simp [List.getD_eq_getElem?_getD, List.getElem?_append_left ha]
  refine ⟨?_, fun u hu => ⟨_, _, e2 u hu⟩⟩
  intro p h1 hr
  rw [e1] at hr
  cases hs : stripQuery next.Href with
  | error e => rw [hs] at hr; cases hr
  | ok q =>
    rw [hs] at hr
    simp only [Except.ok.injEq, Prod.mk.injEq] at hr
    obtain ⟨_, rfl⟩ := hr
    refine ⟨hd, e5, ?_, ?_⟩
    · rw [hd]; simp only [Heap.elems, Heap.array, e5]
    · rw [hd]; simp only [Heap.elems, Heap.array, e5]

theorem nextPage_keeps_opts_witness :
    ∃ p h1, nextPage heapPlain metaBatches (some 0) = .ok (p, h1) ∧
      h1.deref 0 = heapPlain.deref 0 := by
  have hw := nextPage_keeps_opts heapPlain metaBatches 0 ⟨str "/batches?foo=bar"⟩ rfl
    (by decide) (by decide)
  obtain ⟨p, h1, e⟩ := hw.2 _ (by decide : Parse (str "/batches?foo=bar") =
    some { Path := str "/batches", RawQuery := str "foo=bar" })
  exact ⟨p, h1, e, (hw.1 p h1 e).1⟩

/-! ## `batches.go` -/

theorem List_outcome (DoRequest : Transport BatchSlice) (projectBasePath : GoString)
    (createURL : Heap → Addr → GoString) (h : Heap) (projectID : GoString) (listOpt : Ptr) :
    ∃ req : Request,
      (BatchServiceOp.List DoRequest projectBasePath createURL h projectID listOpt).requests
        = [req] ∧
      req.method = str "GET" ∧
      req.path = projectBasePath ++ str "/" ++ projectID ++ batchBasePath ++ str "?" ++
        (match listOpt with
         | some a => createURL h a
         | none => []) ∧
      (BatchServiceOp.List DoRequest projectBasePath createURL h projectID listOpt).resp
        = (DoRequest 0 req).resp ∧
      (BatchServiceOp.List DoRequest projectBasePath createURL h projectID listOpt).err
        = (DoRequest 0 req).err ∧
      (BatchServiceOp.List DoRequest projectBasePath createURL h projectID listOpt).value
        = (match (DoRequest 0 req).err with
           | some _ => none
           | none => appendToNil (DoRequest 0 req).v) := by
  refine ⟨{ method := str "GET",
            path := projectBasePath ++ str "/" ++ projectID ++ batchBasePath ++ str "?" ++
              (match listOpt with
               | some a => createURL h a
               | none => []),
            hasBody := false }, ?_⟩
  rcases hE : (DoRequest 0 (Request.mk (str "GET")
      (projectBasePath ++ str "/" ++ projectID ++ batchBasePath ++ str "?" ++
        (match listOpt with
         | some a => createURL h a
         | none => [])) false)).err with _ | e <;>
    simp only [BatchServiceOp.List, hE, and_self]

/-- C17 (as amended): `BatchServiceOp.List` issues exactly one request, a `GET`
of `projectBasePath/projectID/batches?params`, and returns the response and
error of that request and, when there is no error, the batches of that one
response in order (nil when there are none); it follows no next link. -/
theorem List_one_request (DoRequest : Transport BatchSlice) (projectBasePath : GoString)
    (createURL : Heap → Addr → GoString) (h : Heap) (projectID : GoString) (listOpt : Ptr) :
    ∃ req : Request,
      (BatchServiceOp.List DoRequest projectBasePath createURL h projectID listOpt).requests
        = [req] ∧
      req.method = str "GET" ∧
      req.path = projectBasePath ++ str "/" ++ projectID ++ batchBasePath ++ str "?" ++
        (match listOpt with
         | some a => createURL h a
         | none => []) ∧
      (BatchServiceOp.List DoRequest projectBasePath createURL h projectID listOpt).resp
        = (DoRequest 0 req).resp ∧
      (BatchServiceOp.List DoRequest projectBasePath createURL h projectID listOpt).err
        = (DoRequest 0 req).err ∧
      (BatchServiceOp.List DoRequest projectBasePath createURL h projectID listOpt).value
        = (match (DoRequest 0 req).err with
           | some _ => none
           | none => appendToNil (DoRequest 0 req).v) :=
  List_outcome DoRequest projectBasePath createURL h projectID listOpt

/-- C17 (as stated, refuted): against a transport that serves two batches to
the first request and one batch to a second one, `List` with nil options
returns the two batches of the first response and has issued one request. -/
theorem List_stops_after_first_page :
    (BatchServiceOp.List twoPages (str "/projects") (fun _ _ => []) {} (str "p1") none).value
      = some [{ ID := str "b1" }, { ID := str "b2" }] ∧
    (BatchServiceOp.List twoPages (str "/projects") (fun _ _ => []) {} (str "p1") none).err
      = none ∧
    (BatchServiceOp.List twoPages (str "/projects") (fun _ _ => []) {} (str "p1")
      none).requests.length = 1 := by
  decide

/-- C18: a fetch error is fatal: when `client.DoRequest` returns an error,
`List` returns nil batches, that error and the response it received, having
issued that one request only; `Get` (nil batch) and `Create` (nil batches) do
the same.  Each of the three issues one request in every case. -/
theorem fetch_error_fatal (DoList : Transport BatchSlice) (DoGet : Transport Batch)
    (projectBasePath : GoString) (createURL : Heap → Addr → GoString) (h : Heap)
    (id : GoString) (listOpt : Ptr) (hasRequest : Bool) :
    (∃ req, (BatchServiceOp.List DoList projectBasePath createURL h id listOpt).requests
        = [req] ∧
      ∀ e, (DoList 0 req).err = some e →
        (BatchServiceOp.List DoList projectBasePath createURL h id listOpt).value = none ∧
        (BatchServiceOp.List DoList projectBasePath createURL h id listOpt).err = some e ∧
        (BatchServiceOp.List DoList projectBasePath createURL h id listOpt).resp
          = (DoList 0 req).resp) ∧
    (∃ req, (BatchServiceOp.Get DoGet createURL h id listOpt).requests = [req] ∧
      ∀ e, (DoGet 0 req).err = some e →
        (BatchServiceOp.Get DoGet createURL h id listOpt).value = none ∧
        (BatchServiceOp.Get DoGet createURL h id listOpt).err = some e ∧
        (BatchServiceOp.Get DoGet createURL h id listOpt).resp = (DoGet 0 req).resp) ∧
    (∃ req, (BatchServiceOp.Create DoList projectBasePath id hasRequest).requests = [req] ∧
      ∀ e, (DoList 0 req).err = some e →
        (BatchServiceOp.Create DoList projectBasePath id hasRequest).value = none ∧
        (BatchServiceOp.Create DoList projectBasePath id hasRequest).err = some e ∧
        (BatchServiceOp.Create DoList projectBasePath id hasRequest).resp
          = (DoList 0 req).resp) := by
  refine ⟨?_, ?_, ?_⟩
  · obtain ⟨req, r1, _, _, r4, r5, r6⟩ :=
      List_outcome DoList projectBasePath createURL h id listOpt
    refine ⟨req, r1, fun e he => ?_⟩
    rw [r4, r5, r6, he]
    exact ⟨rfl, rfl, rfl⟩
  · refine ⟨{ method := str "GET",
              path := batchBasePath ++ str "/" ++ id ++ str "?" ++
                (match listOpt with
                 | some a => createURL h a
                 | none => []),
              hasBody := false }, ?_, ?_⟩
    · unfold BatchServiceOp.Get
      simp only
      split <;> rfl
    · intro e he
      unfold BatchServiceOp.Get
      simp only
      split
      · rename_i e2 he2
        rw [he] at he2
        cases he2
        exact ⟨rfl, rfl, rfl⟩
      · rename_i he2
        rw [he] at he2
        cases he2
  · refine ⟨{ method := str "POST",
              path := projectBasePath ++ str "/" ++ id ++ str "/devices/batch",
              hasBody := hasRequest }, ?_, ?_⟩
    · unfold BatchServiceOp.Create
      simp only
      split <;> rfl
    · intro e he
      unfold BatchServiceOp.Create
      simp only
      split
      · rename_i e2 he2
        rw [he] at he2
        cases he2
        exact ⟨rfl, rfl, rfl⟩
      · rename_i he2
        rw [he] at he2
        cases he2

theorem fetch_error_fatal_witness :
    (BatchServiceOp.List (failing BatchSlice (some [{ ID := str "b1" }])) (str "/projects")
      (fun _ _ => []) {} (str "p1") none).value = none ∧
    (BatchServiceOp.List (failing BatchSlice (some [{ ID := str "b1" }])) (str "/projects")
      (fun _ _ => []) {} (str "p1") none).err = some ⟨str "boom"⟩ := by
  obtain ⟨req, _, hreq⟩ :=
    (fetch_error_fatal (failing BatchSlice (some [{ ID := str "b1" }]))
      (failing Batch {}) (str "/projects") (fun _ _ => []) {} (str "p1") none false).1
  have := hreq ⟨str "boom"⟩ rfl
  exact ⟨this.1, this.2.1⟩

end Packngo
